import Mathlib

/-!
Verification of the `trie` package (Go): a trie over byte alphabets in three
encodings — a naive pointer trie (`simple` / `simpleNode`), a suffix-compressed
DAG (`scBuilder` / `compress`), and a flat packed array following Liang's
algorithm (`packedTable` / `packedNode`) — together with the stateful
`Navigator` cursor.

The Go code is shallowly embedded:
  * `simple` nodes become the inductive `SimpleT`; Go pointers are modelled by
    tree values.  Pre-compression the pointer graph built by `AddWord` is a
    tree, so this is exact; post-compression, structurally equal nodes are
    pointer-identical in Go (that is what `compress` establishes), so value
    equality coincides with pointer equality on every tree `fromSimple` is
    actually applied to.
  * `CharMap` (`[256]int`) becomes its lookup function on `0..255`; reads at
    indexes `≥ 256` (which panic in Go) are modelled explicitly where they can
    occur (`AddWord` ranges over runes).
  * the packed table's `uint32` cells become `Nat` with the low 8 bits as key
    and the high 24 bits as value, with wraparound (`% 256`, `% 2^24`, `% 2^32`)
    written out exactly where the Go casts and shifts truncate.
  * run-time panics are modelled as explicit `crashed` / `none` outcomes.
-/

set_option maxHeartbeats 1600000
set_option maxRecDepth 16000

/-- A `CharMap` (`type CharMap [256]int`) modelled by its lookup function on
byte values `0..255`.  `cm c = 0` means byte `c` is rejected. -/
def CharMap := Nat → Nat

/-- Reading the Go array `cm[c]` for an arbitrary rune index `c`: the array has
256 entries, so `c ≥ 256` is an index-out-of-range panic, modelled as `none`. -/
def cmRead (cm : CharMap) (c : Nat) : Option Nat :=
  if c < 256 then some (cm c) else none

/-- `NewAlphaCharMap`: A-Z and a-z map to 1..26 (case-folded), `'-'` (byte 45)
to 27, `'\''` (byte 39) to 28, everything else rejected. -/
def alphaCharMap : CharMap := fun c =>
  if 65 ≤ c ∧ c ≤ 90 then c - 64
  else if 97 ≤ c ∧ c ≤ 122 then c - 96
  else if c = 45 then 27
  else if c = 39 then 28
  else 0

/-- `(cm *CharMap).max()`: the largest symbol id in the table. -/
def cmMax (cm : CharMap) : Nat :=
  (List.range 256).foldl (fun r i => if cm i > r then cm i else r) 0

/-- The `simple` trie node: `type simple struct { isWord bool; children []*simple }`.
`children[i] = none` models a nil pointer. -/
inductive SimpleT where
  | mk (isWord : Bool) (children : List (Option SimpleT))

/-- Field accessor for `simple.isWord`. -/
def SimpleT.isWord : SimpleT → Bool
  | .mk w _ => w

/-- Field accessor for `simple.children`. -/
def SimpleT.children : SimpleT → List (Option SimpleT)
  | .mk _ cs => cs

/-- `newSimple(n)`: a fresh node with `n` nil children. -/
def newSimple (n : Nat) : SimpleT := .mk false (List.replicate n none)

/-- Structural equality test on `SimpleT`, used to give decidable equality. -/
def beqS (s t : SimpleT) : Bool :=
  match s, t with
  | .mk w1 cs1, .mk w2 cs2 => w1 == w2 && beqK cs1 cs2
where
  beqK : List (Option SimpleT) → List (Option SimpleT) → Bool
  | [], [] => true
  | none :: r1, none :: r2 => beqK r1 r2
  | some c1 :: r1, some c2 :: r2 => beqS c1 c2 && beqK r1 r2
  | _, _ => false

theorem beqS_iff_aux : ∀ n, (∀ s t : SimpleT, sizeOf s ≤ n → (beqS s t = true ↔ s = t)) ∧
    (∀ cs1 cs2 : List (Option SimpleT), sizeOf cs1 ≤ n → (beqS.beqK cs1 cs2 = true ↔ cs1 = cs2)) := by
  intro n
  induction n with
  | zero =>
    constructor
    · intro s; cases s with | mk w cs => intro t h; simp at h
    · intro cs1 cs2 h
      cases cs1 with
      | nil => cases cs2 with
        | nil => simp [beqS.beqK]
        | cons x r => simp [beqS.beqK]
      | cons x r => simp at h
  | succ n ih =>
    constructor
    · intro s t hs
      cases s with | mk w1 cs1 =>
      cases t with | mk w2 cs2 =>
      simp only [beqS, Bool.and_eq_true, beq_iff_eq]
      rw [(ih.2 cs1 cs2 (by simp at hs; omega))]
      simp
    · intro cs1 cs2 hs
      cases cs1 with
      | nil =>
        cases cs2 with
        | nil => simp [beqS.beqK]
        | cons x r => simp [beqS.beqK]
      | cons x r =>
        cases cs2 with
        | nil => cases x <;> simp [beqS.beqK]
        | cons y r2 =>
          cases x with
          | none =>
            cases y with
            | none =>
              simp only [beqS.beqK]
              rw [ih.2 r r2 (by simp at hs; omega)]
              simp
            | some c2 => simp [beqS.beqK]
          | some c1 =>
            cases y with
            | none => simp [beqS.beqK]
            | some c2 =>
              simp only [beqS.beqK, Bool.and_eq_true]
              rw [ih.1 c1 c2 (by simp at hs; omega), ih.2 r r2 (by simp at hs; omega)]
              simp

instance : DecidableEq SimpleT := fun s t =>
  decidable_of_iff (beqS s t = true) ((beqS_iff_aux (sizeOf s)).1 s t le_rfl)

/-! ### `AddWord` on the simple builder

`func (b *simpleNode) AddWord(s string) error` first checks every character of
the word, then walks/creates nodes and marks the final node.  Go's
`for _, c := range s` iterates *runes*, and `b.cm[c]` indexes the 256-entry
array with the rune value, so a rune `≥ 256` is an index-out-of-range panic.
Words are therefore modelled as lists of rune values. -/

/-- Outcome of `AddWord`. -/
inductive AddRes where
  | crashed                 -- run-time panic (rune ≥ 256 indexes the 256-entry CharMap)
  | invalidChar             -- the `Bad word` error return
  | ok (t : SimpleT)        -- success, with the updated tree

/-- Outcome of the first (checking) loop of `AddWord`. -/
inductive ChkRes where
  | crashed   -- a rune ≥ 256 was indexed into the 256-entry table
  | bad       -- some character maps to 0: the `Bad word` error path
  | good      -- all characters accepted
deriving DecidableEq

/-- The first loop of `AddWord`: check that every character is accepted. -/
def checkChars (cm : CharMap) : List Nat → ChkRes
  | [] => .good
  | c :: rest =>
    match cmRead cm c with
    | none => .crashed
    | some 0 => .bad
    | some (_+1) => checkChars cm rest

/-- The second loop of `AddWord`: walk/create nodes along the word and mark the
final node as a word end.  Only reached when every character was accepted.
(Go reads `st.children[b.cm[c]-1]`; on the trees the builder constructs every
node has `cm.max()` children, so the index is always in bounds.) -/
def insertW (cm : CharMap) (N : Nat) : SimpleT → List Nat → SimpleT
  | t, [] => .mk true t.children
  | .mk w cs, c :: rest =>
    let i := cm c - 1
    let child := match cs.getD i none with
      | some ch => ch
      | none => newSimple N
    .mk w (cs.set i (some (insertW cm N child rest)))

/-- `AddWord` itself: check phase, then insert phase. -/
def addWord (cm : CharMap) (t : SimpleT) (w : List Nat) : AddRes :=
  match checkChars cm w with
  | .crashed => .crashed
  | .bad => .invalidChar
  | .good => .ok (insertW cm (cmMax cm) t w)

/-! ### Language membership and the node capability (`TrieNode` methods)

`simpleNode` methods, with the receiver's nil checks (`s == nil`) as written in
their bodies: the sentinel is the nil pointer, modelled as `none`. -/

/-- Membership of a child-index path (0-based: symbol `k` is index `k-1`). -/
def memT : SimpleT → List Nat → Bool
  | t, [] => t.isWord
  | .mk _ cs, i :: is =>
    match cs.getD i none with
    | some c => memT c is
    | none => false

/-- `(s *simpleNode) IsPrefix()`: `s != nil`. -/
def isPrefS (o : Option SimpleT) : Bool := o.isSome

/-- `(s *simpleNode) IsWord()`: `s != nil && s.s.isWord`. -/
def isWordS : Option SimpleT → Bool
  | none => false
  | some t => t.isWord

/-- `(s *simpleNode) Follow(c)`: nil if the receiver is nil, the byte is
rejected, or there is no child; otherwise the child. -/
def followS (cm : CharMap) : Option SimpleT → Nat → Option SimpleT
  | none, _ => none
  | some t, c =>
    if cm c = 0 then none
    else
      match t.children.getD (cm c - 1) none with
      | none => none
      | some ch => some ch

/-- Following a whole byte string. -/
def followStarS (cm : CharMap) (o : Option SimpleT) (bs : List Nat) : Option SimpleT :=
  bs.foldl (followS cm) o

/-! ### The Navigator

`type Navigator struct { nodes []TrieNode; prefix []byte }`, polymorphic over
the `TrieNode` interface.  `NewNavigator` seeds `nodes` with the root, so the
stack is always `root :: rest`; the model keeps the root separate to record
that invariant.  The `prefix` field is called `pfx` here. -/

/-- The `TrieNode` interface: `IsPrefix`, `IsWord`, `Follow`. -/
structure TrieOps (α : Type) where
  isPref : α → Bool
  isWordQ : α → Bool
  follow : α → Nat → α

/-- A `Navigator`: node stack `root :: rest` and the byte prefix `pfx`. -/
structure Nav (α : Type) where
  root : α
  rest : List α
  pfx : List Nat

/-- `lastNode()`: the top of the node stack. -/
def lastNodeN (nav : Nav α) : α := nav.rest.getLastD nav.root

/-- `Push(c)`: append `c` to the prefix and `top.Follow(c)` to the node stack. -/
def pushN (ops : TrieOps α) (nav : Nav α) (c : Nat) : Nav α :=
  { nav with pfx := nav.pfx ++ [c],
             rest := nav.rest ++ [ops.follow (lastNodeN nav) c] }

/-- `Pop()`: drop the last prefix byte and stack node.  At the root the Go code
panics slicing `prefix[:len(prefix)-1]`; that precondition violation is `none`. -/
def popN (nav : Nav α) : Option (Nav α) :=
  if nav.pfx = [] then none
  else some { nav with pfx := nav.pfx.dropLast, rest := nav.rest.dropLast }

/-- `Word()`: the accumulated prefix. -/
def navWord (nav : Nav α) : List Nat := nav.pfx

/-- `IsWord()` on the navigator: delegate to the top node. -/
def navIsWord (ops : TrieOps α) (nav : Nav α) : Bool := ops.isWordQ (lastNodeN nav)

/-- `IsPrefix()` on the navigator: delegate to the top node. -/
def navIsPref (ops : TrieOps α) (nav : Nav α) : Bool := ops.isPref (lastNodeN nav)

/-- `Reset()`: back to just the root and the empty prefix. -/
def resetN (nav : Nav α) : Nav α := { nav with pfx := [], rest := [] }

/-- The loop bounds of `allValidWords`: `for c := byte('A'); c <= byte('Z'); c++`.
Only the 26 bytes 65..90 are ever pushed. -/
def azBytes : List Nat := List.range' 65 26

/-- The `for c := 'A'; c <= 'Z'` loop body of `allValidWords`: push `c`, run
the recursive enumeration (passed in as `rec`), pop, continue with the
remaining bytes. -/
def avwGo (ops : TrieOps α) (rec : Nav α → Option (Nav α × List (List Nat))) :
    Nav α → List Nat → Option (Nav α × List (List Nat))
  | nav, [] => some (nav, [])
  | nav, c :: cs =>
    match rec (pushN ops nav c) with
    | none => none
    | some (nav2, ws1) =>
      match popN nav2 with
      | none => none
      | some nav3 =>
        match avwGo ops rec nav3 cs with
        | none => none
        | some (nav4, ws2) => some (nav4, ws1 ++ ws2)

/-- `(n *Navigator) allValidWords(words chan string)`, in state-passing form:
returns the final navigator state and the words sent, in order.  `fuel` bounds
the recursion depth (the Go recursion terminates because each `Push` descends
one level in a finite trie); fuel 0 returns the state unchanged with no words.
A `none` outcome is a run-time panic (a `Pop` precondition violation). -/
def avw (ops : TrieOps α) : Nat → Nav α → Option (Nav α × List (List Nat))
  | 0, nav => some (nav, [])
  | fuel+1, nav =>
    if ¬ navIsPref ops nav then some (nav, [])
    else
      let ws0 := if navIsWord ops nav then [navWord nav] else []
      match avwGo ops (avw ops fuel) nav azBytes with
      | none => none
      | some (nav2, ws) => some (nav2, ws0 ++ ws)

/-- `Count()`: the number of words received from the enumeration. -/
def countWords (ops : TrieOps α) (fuel : Nat) (nav : Nav α) : Option Nat :=
  (avw ops fuel nav).map fun p => p.2.length

/-! ### Suffix compression (`compressTable`, `nodesEqual`, `compressNode`)

Go memoizes `hash` per node pointer in `ct.hashes`; the hash is a pure function
of node structure, so the memo table has no observable effect and is omitted.
`done` maps a hash to its collision bucket. -/

mutual
/-- `(ct *compressTable) hash(t)`: the structural hash, in `uint32` arithmetic. -/
def hashT : SimpleT → Nat
  | .mk w cs =>
    let r := hashK cs 0 0
    let r2 := if w then (r * 7 + 1) % 2^32 else r
    if r2 = 0 then 42 else r2
def hashK : List (Option SimpleT) → Nat → Nat → Nat
  | [], _, acc => acc
  | none :: rest, i, acc => hashK rest (i+1) ((acc * 167 + (i+1) * 99) % 2^32)
  | some c :: rest, i, acc => hashK rest (i+1) ((acc * 167 + (i+1) * hashT c) % 2^32)
end

/-- The presence scan of `nodesEqual`: `(s.children[i]==nil) != (t.children[i]==nil)`.
Go indexes `t.children[i]` over `s`'s range (and would panic if `t` were
shorter; in the pipeline all nodes have `cm.max()` children). -/
def presenceEq : List (Option SimpleT) → List (Option SimpleT) → Bool
  | [], _ => true
  | o :: r1, ts => (o.isSome == (ts.headD none).isSome) && presenceEq r1 ts.tail

mutual
/-- `nodesEqual(s, t)`: pointer fast path, then word flags, then child presence,
then recursive equality of present children.  The pointer fast path `s == t`
becomes value equality here.  (In `kidsEqual` the case of a present `s`-child
against an absent `t`-child is unreachable: it is guarded by `presenceEq`.) -/
def nodesEqual (s t : SimpleT) : Bool :=
  if s = t then true
  else
    match s, t with
    | .mk w1 cs1, .mk w2 cs2 =>
      if w1 != w2 then false
      else if !presenceEq cs1 cs2 then false
      else kidsEqual cs1 cs2
/-- The second loop of `nodesEqual`, walking the child lists in step. -/
def kidsEqual : List (Option SimpleT) → List (Option SimpleT) → Bool
  | [], _ => true
  | none :: r1, ts => kidsEqual r1 ts.tail
  | some c :: r1, ts =>
    (match ts.headD none with
     | some d => nodesEqual c d
     | none => false) && kidsEqual r1 ts.tail
end

/-- The compression identity table: buckets of already-canonicalized nodes per
hash value, plus the statistics counters the Go code logs. -/
structure CompressTable where
  done : List (Nat × List SimpleT)
  duplicates : Nat
  nodes : Nat
  collisions : Nat

/-- Bucket lookup: `ct.done[h]`, the zero value (empty) if absent. -/
def ctGet (done : List (Nat × List SimpleT)) (h : Nat) : List SimpleT :=
  match done.find? (fun p => p.1 == h) with
  | some p => p.2
  | none => []

/-- Bucket update: `ct.done[h] = b`. -/
def ctPut (done : List (Nat × List SimpleT)) (h : Nat) (b : List SimpleT) :
    List (Nat × List SimpleT) :=
  match done with
  | [] => [(h, b)]
  | p :: rest => if p.1 = h then (h, b) :: rest else p :: ctPut rest h b

/-- `(ct *compressTable) insertNode(t)`: scan `t`'s hash bucket for a node that
passes `nodesEqual`; return it if found (a duplicate), otherwise append `t` to
the bucket as a new canonical representative. -/
def insertNodeC (ct : CompressTable) (t : SimpleT) : SimpleT × CompressTable :=
  let h := hashT t
  let bucket := ctGet ct.done h
  let fresh := bucket.isEmpty
  match bucket.find? (fun s => nodesEqual s t) with
  | some s => (s, { ct with duplicates := ct.duplicates + 1 })
  | none =>
    (t, { ct with done := ctPut ct.done h (bucket ++ [t]),
                  nodes := ct.nodes + 1,
                  collisions := if fresh then ct.collisions else ct.collisions + 1 })

mutual
/-- `(ct *compressTable) compressNode(t)`: compress the children bottom-up
(in index order), then canonicalize the node itself. -/
def compressNodeC (ct : CompressTable) : SimpleT → SimpleT × CompressTable
  | .mk w cs =>
    let p := compressKids ct cs
    insertNodeC p.2 (.mk w p.1)
/-- The child loop of `compressNode`. -/
def compressKids (ct : CompressTable) : List (Option SimpleT) → List (Option SimpleT) × CompressTable
  | [] => ([], ct)
  | none :: r =>
    let p := compressKids ct r
    (none :: p.1, p.2)
  | some c :: r =>
    let q := compressNodeC ct c
    let p := compressKids q.2 r
    (some q.1 :: p.1, p.2)
end

/-- `compress(t *simpleNode)`: run `compressNode` on the root with a fresh
table (the stderr statistics printing has no effect on the result). -/
def compressT (t : SimpleT) : SimpleT :=
  (compressNodeC { done := [], duplicates := 0, nodes := 0, collisions := 0 } t).1

/-! ### The packed table (`packedTable`, `findIndex`, `insertNode`, `packedNode`)

A cell is a `uint32`: low 8 bits key, high 24 bits value.  Cells are `Nat`s
kept below `2^32` by construction; the Go casts and shifts (`uint8(k)`,
`v << 8` on `uint32`) appear as `% 256` and `% 2^24`.  `SetKey`/`SetValue`
panic in Go when the index is out of range; every call site is in bounds
(after `ensureIndex`), and `List.set` is a no-op there, so no explicit panic
case is needed. -/

/-- `(t *packedTable) Key(idx)`: the low byte of the cell (0 for a cell that
does not exist; `Key` is only read below `len(cells)` apart from `indexAt`'s
explicit bound check). -/
def keyAt (cells : List Nat) (p : Nat) : Nat := cells.getD p 0 % 256

/-- `(t *packedTable) Value(idx)`: the high 24 bits of the cell. -/
def valAt (cells : List Nat) (p : Nat) : Nat := cells.getD p 0 / 256

/-- `SetKey(idx, k)`: clear the low byte and install `k`. -/
def setKeyL (cells : List Nat) (idx k : Nat) : List Nat :=
  cells.set idx (cells.getD idx 0 / 256 * 256 + k % 256)

/-- `SetValue(idx, v)`: clear the high bits and install `v << 8` (truncated to
32 bits, so `v` is taken mod `2^24`). -/
def setValL (cells : List Nat) (idx v : Nat) : List Nat :=
  cells.set idx (cells.getD idx 0 % 256 + v % 2^24 * 256)

/-- The loop of `(t *packedTable) nextGap(i)`: advance past nonzero cells.
The loop adds 1 to `j` while `j < len(cells)`, so it runs at most
`len(cells) - j` times; `left` is that remaining-iteration count, and when it
reaches 0 the loop condition `j < len(cells)` is false and `j` is returned. -/
def nextGapGo (cells : List Nat) : Int → Nat → Int
  | j, 0 => j
  | j, left+1 =>
    if j < (cells.length : Int) ∧ cells.getD j.toNat 0 ≠ 0 then nextGapGo cells (j+1) left
    else j

/-- `nextGap(i)`: the first index `> i` holding an (entirely) zero cell, or
`len(cells)` if there is none. -/
def nextGap (cells : List Nat) (i : Int) : Int :=
  nextGapGo cells (i + 1) (((cells.length : Int) - (i + 1)).toNat + 1)

/-- The loop of `(t *packedTable) ensureIndex(i, M)`: append blocks of `M` zero
cells while `len(cells) < i + M`.  Each iteration grows the table by `M ≥ 1`
cells, so at most `i + M - len(cells)` iterations run; `left` is that count. -/
def ensureGo (i M : Nat) : List Nat → Nat → List Nat
  | cells, 0 => cells
  | cells, left+1 =>
    if cells.length < i + M then ensureGo i M (cells ++ List.replicate M 0) left
    else cells

/-- `(t *packedTable) ensureIndex(i, M)` (Go passes `M = N+1 ≥ 1`). -/
def ensureIndexL (cells : List Nat) (i M : Nat) : List Nat :=
  ensureGo i M cells (i + M - cells.length)

/-- The scan-start alignment of `findIndex`: `0` if the node is a word,
otherwise one past the first present child, otherwise `N+1`. -/
def firstLive : List (Option SimpleT) → Nat → Option Nat
  | [], _ => none
  | some _ :: _, i => some i
  | none :: r, i => firstLive r (i+1)

/-- `offset` as computed at the top of `findIndex`. -/
def offsetOfS (s : SimpleT) : Nat :=
  if s.isWord then 0
  else match firstLive s.children 0 with
    | some i => i + 1
    | none => s.children.length + 1

/-- The inner `for j := 0; j < N+1; j++` check of `findIndex` at candidate base
`i`: `true` means the candidate is accepted (either all `N+1` slots pass, or
slot `i+j` runs past the end of the table, which accepts immediately and lets
`ensureIndex` grow zeros).  `left = N+1-j` is the number of slots still to
check; at `left = 0` the loop condition `j < N+1` is false and the candidate
is accepted. -/
def fitsFrom (cells : List Nat) (w : Bool) (cs : List (Option SimpleT)) (i : Nat) : Nat → Nat → Bool
  | _, 0 => true
  | j, left+1 =>
    if cells.length ≤ i + j then true
    else if keyAt cells (i + j) = (j + 1) % 256 then false
    else if keyAt cells (i + j) = 0 then fitsFrom cells w cs i (j+1) left
    else if j = 0 ∧ w = true then false
    else if 1 ≤ j ∧ (cs.getD (j-1) none).isSome = true then false
    else fitsFrom cells w cs i (j+1) left

/-- The whole inner check, from slot 0. -/
def fitsAt (cells : List Nat) (w : Bool) (cs : List (Option SimpleT)) (i : Nat) : Bool :=
  fitsFrom cells w cs i 0 (cs.length + 1)

/-- The candidate scan of `findIndex`:
`for i := t.nextGap(-1) - offset; i < len(t.cells); i = t.nextGap(i+offset) - offset`.
Returns the accepted base, or `len(cells)` if the scan runs off the end (the
final `return t.ensureIndex(len(t.cells), N+1)`).  `nextGap` returns at least
its argument plus one, so `i` grows by at least 1 per iteration and the loop
runs at most `len(cells) - i` times; `left` is that remaining-iteration count,
and at `left = 0` the loop condition `i < len(cells)` has failed and the
fall-through value `len(cells)` is returned. -/
def scanGo (cells : List Nat) (w : Bool) (cs : List (Option SimpleT)) (offset : Nat) : Int → Nat → Nat
  | _, 0 => cells.length
  | i, left+1 =>
    if i < (cells.length : Int) then
      if 0 ≤ i ∧ fitsAt cells w cs i.toNat = true then i.toNat
      else scanGo cells w cs offset (nextGap cells (i + offset) - offset) left
    else cells.length

/-- The candidate scan from its initial candidate `i`. -/
def scanIdx (cells : List Nat) (w : Bool) (cs : List (Option SimpleT)) (offset : Nat) (i : Int) : Nat :=
  scanGo cells w cs offset i (((cells.length : Int) - i).toNat + 1)

/-- `(t *packedTable) findIndex(s)`: scan for a legal base for `s`, then grow
the table so the node's `N+1` slots exist.  Returns the base and the grown
table. -/
def findIndexT (cells : List Nat) (s : SimpleT) : Nat × List Nat :=
  let N := s.children.length
  let offset := offsetOfS s
  let idx := scanIdx cells s.isWord s.children offset (nextGap cells (-1) - offset)
  (idx, ensureIndexL cells idx (N+1))

/-- The first child loop of `insertNode`: `SetKey(idx+i+1, uint8(i+2))` for
every present child. -/
def setChildKeys (cells : List Nat) (idx : Nat) : List (Option SimpleT) → Nat → List Nat
  | [], _ => cells
  | none :: r, i => setChildKeys cells idx r (i+1)
  | some _ :: r, i => setChildKeys (setKeyL cells (idx+i+1) (i+2)) idx r (i+1)

/-- The packed-construction state: the growing cell array plus the
node-identity → base-offset map (`indexes map[*simple]int`, storing
`offset+1`, with 0 = absent).  After compression, structurally equal live
nodes are pointer-identical, so node values key the map faithfully. -/
structure PackSt where
  cells : List Nat
  indexes : List (SimpleT × Nat)

/-- Reading `indexes[s]` (0 when absent, as for a Go map). -/
def lookupIdx (ixs : List (SimpleT × Nat)) (s : SimpleT) : Nat :=
  match ixs.find? (fun p => p.1 == s) with
  | some p => p.2
  | none => 0

mutual
/-- `(t *packedTable) insertNode(s, indexes)`: memo hit returns the stored
base; otherwise find a base, record it, write the terminal key and the child
keys, then insert the children, storing each child's base in the value field
of its slot. -/
def insertNodeP (s : SimpleT) (st : PackSt) : Nat × PackSt :=
  if lookupIdx st.indexes s ≠ 0 then (lookupIdx st.indexes s - 1, st)
  else
    match s with
    | .mk w cs =>
      let p := findIndexT st.cells (.mk w cs)
      let cells2 := if w then setKeyL p.2 p.1 1 else p.2
      let cells3 := setChildKeys cells2 p.1 cs 0
      (p.1, insertKidsP cs 0 p.1 { cells := cells3, indexes := (.mk w cs, p.1 + 1) :: st.indexes })
/-- The second child loop of `insertNode`: recursively insert each present
child and store its base offset in this node's slot `idx+i+1`. -/
def insertKidsP : List (Option SimpleT) → Nat → Nat → PackSt → PackSt
  | [], _, _, st => st
  | none :: r, i, idx, st => insertKidsP r (i+1) idx st
  | some c :: r, i, idx, st =>
    let q := insertNodeP c st
    insertKidsP r (i+1) idx { q.2 with cells := setValL q.2.cells (idx+i+1) q.1 }
end

/-- A `packedNode`: the shared table (with its char map) and this node's base
offset; `idx = -1` is the dead sentinel `badNode`. -/
structure PackedN where
  cells : List Nat
  cm : CharMap
  idx : Int

/-- `badNode = packedNode{nil, -1}` (the nil table is never dereferenced). -/
def badNodeP : PackedN := { cells := [], cm := fun _ => 0, idx := -1 }

/-- `fromSimple`: pack a node graph into a fresh table. -/
def fromSimpleT (cm : CharMap) (s : SimpleT) : PackedN :=
  let p := insertNodeP s { cells := [], indexes := [] }
  { cells := p.2.cells, cm := cm, idx := (p.1 : Int) }

/-- `(t *packedTable) indexAt(idx, c)`: `-1` unless cell `idx+c` exists and
carries key `c+1`, in which case the cell's value (the child base). -/
def indexAtP (cells : List Nat) (idx c : Nat) : Int :=
  if cells.length ≤ idx + c ∨ keyAt cells (idx + c) ≠ (c + 1) % 256 then -1
  else (valAt cells (idx + c) : Int)

/-- `(p packedNode) IsPrefix()`: the base offset is not the sentinel. -/
def pIsPref (p : PackedN) : Bool := p.idx != -1

/-- `(p packedNode) IsWord()`: live and the cell at `base+0` carries key 1. -/
def pIsWord (p : PackedN) : Bool := p.idx != -1 && indexAtP p.cells p.idx.toNat 0 != -1

/-- `(p packedNode) Follow(c)`: sentinel if dead or the byte is rejected or
the transition is missing; otherwise the child handle on the same table. -/
def pFollow (p : PackedN) (c : Nat) : PackedN :=
  if p.idx = -1 ∨ p.cm c = 0 then badNodeP
  else
    let r := indexAtP p.cells p.idx.toNat (p.cm c)
    if r = -1 then badNodeP else { p with idx := r }

/-- Following a whole byte string in the packed encoding. -/
def pFollowStar (p : PackedN) (bs : List Nat) : PackedN := bs.foldl pFollow p

/-- The `TrieNode` interface instance of the packed encoding. -/
def packedOps : TrieOps PackedN :=
  { isPref := pIsPref, isWordQ := pIsWord, follow := pFollow }

/-! ### Well-formedness of pipeline trees

Every node the builder creates has `cm.max()` children (`newSimple(b.cm.max())`),
and every node other than the root is live (it is either a word end or has a
child), because `AddWord` marks the last node of the path it walks and gives a
child to every intermediate one. -/

mutual
/-- Every node of the tree has exactly `N` child slots. -/
def uniformT (N : Nat) : SimpleT → Bool
  | .mk _ cs => (cs.length == N) && uniformK N cs
/-- `uniformT` over a child list. -/
def uniformK (N : Nat) : List (Option SimpleT) → Bool
  | [] => true
  | none :: r => uniformK N r
  | some c :: r => uniformT N c && uniformK N r
end

/-- A node is live: it is a word end or has at least one child. -/
def liveB (s : SimpleT) : Bool := s.isWord || s.children.any Option.isSome

mutual
/-- Every strict descendant of the node is live (the root itself may be the
empty node of a fresh builder). -/
def goodKidsT : SimpleT → Bool
  | .mk _ cs => goodKidsK cs
/-- `goodKidsT` over a child list. -/
def goodKidsK : List (Option SimpleT) → Bool
  | [] => true
  | none :: r => goodKidsK r
  | some c :: r => liveB c && goodKidsT c && goodKidsK r
end

/-- Every tree stored in any bucket of the compression table is uniform. -/
def CTInvP (N : Nat) (ct : CompressTable) : Prop :=
  ∀ p ∈ ct.done, ∀ s ∈ p.2, uniformT N s = true

/-- Slot `j` of a node `(w, cs)` is live: slot 0 when the node is a word end,
slot `i+1` for each present child `i`. -/
def liveSlot (w : Bool) (cs : List (Option SimpleT)) (j : Nat) : Prop :=
  (j = 0 ∧ w = true) ∨ (1 ≤ j ∧ (cs.getD (j-1) none).isSome = true)

/-- The cell array right after the fresh branch of `insertNode` has written the
node's own keys (terminal flag and child transitions), before the children are
inserted.  Abbreviates the corresponding subterm of `insertNodeP`. -/
def freshCells (st : PackSt) (w : Bool) (cs : List (Option SimpleT)) : List Nat :=
  setChildKeys
    (if w then setKeyL (findIndexT st.cells (.mk w cs)).2 (findIndexT st.cells (.mk w cs)).1 1
     else (findIndexT st.cells (.mk w cs)).2)
    (findIndexT st.cells (.mk w cs)).1 cs 0

/-! ### The packing invariant

For every node recorded in `indexes` at base `b = ix1 - 1`: the node's keys
are in the table exactly (key 1 at `b` iff word-terminal; key `i+2` at
`b+i+1` iff child `i` present), and — once the node's children have been
inserted — the value at `b+i+1` is the child's recorded base.  `pend` lists
the nodes whose child values are still being written (the recursion stack). -/

/-- The keys of node `s` placed at base `idx` are exactly in `cellsL`. -/
def keysOkAt (cellsL : List Nat) (s : SimpleT) (idx : Nat) : Prop :=
  (s.isWord = true → keyAt cellsL idx = 1) ∧
  (s.isWord = false → keyAt cellsL idx ≠ 1) ∧
  (∀ i, i < s.children.length →
    ((s.children.getD i none).isSome = true → keyAt cellsL (idx+i+1) = i+2) ∧
    (s.children.getD i none = none → keyAt cellsL (idx+i+1) ≠ i+2))

/-- The child values of node `s` placed at base `idx` are the recorded bases. -/
def valsOkAt (st : PackSt) (s : SimpleT) (idx : Nat) : Prop :=
  ∀ i, i < s.children.length → ∀ c, s.children.getD i none = some c →
    lookupIdx st.indexes c ≠ 0 ∧
    valAt st.cells (idx+i+1) = (lookupIdx st.indexes c - 1) % 2^24

/-- The global invariant of the packed construction. -/
def GInv (N : Nat) (st : PackSt) (pend : List SimpleT) : Prop :=
  (st.indexes.map Prod.fst).Nodup ∧
  (∀ x ix1 y iy1, (x, ix1) ∈ st.indexes → (y, iy1) ∈ st.indexes → x ≠ y → ix1 ≠ iy1) ∧
  ∀ x ix1, (x, ix1) ∈ st.indexes →
    1 ≤ ix1 ∧ ix1 - 1 + N + 1 ≤ st.cells.length ∧
    uniformT N x = true ∧ liveB x = true ∧ goodKidsT x = true ∧
    keysOkAt st.cells x (ix1 - 1) ∧
    (x ∉ pend → valsOkAt st x (ix1 - 1))

/-- The packed handle of a node recorded at `ix1` in the memo table. -/
def pnodeOf (st : PackSt) (cm : CharMap) (ix1 : Nat) : PackedN :=
  { cells := st.cells, cm := cm, idx := ((ix1 - 1 : Nat) : Int) }

/-- The simulation relation between a simple-encoding position (`none` = the
nil sentinel) and a packed position over a finished table. -/
def RelSP (st : PackSt) (cm : CharMap) (o : Option SimpleT) (p : PackedN) : Prop :=
  (o = none ∧ p = badNodeP) ∨
  (∃ x ix1, o = some x ∧ (x, ix1) ∈ st.indexes ∧ p = pnodeOf st cm ix1)

/-- A tiny two-node concrete pipeline for witnesses: one symbol, one word. -/
def cmW : CharMap := fun b => if b = 65 then 1 else 0

/-- The two-node tree `{A}` over `cmW`. -/
def tW : SimpleT := .mk false [some (.mk true [none])]

/-! ### `TrieNode` interface dispatch for the simple encoding

`(s *simpleNode) Follow` returns the untyped literal `nil` as a `TrieNode`,
which is the nil *interface*.  Calling any method on a nil interface value is a
run-time panic — the receiver's own `s == nil` checks are never reached through
the interface.  An interface value is modelled as `Option SimpleT`: `some t`
wraps a (non-nil) `*simpleNode` whose `s` field is `t`; `none` is the nil
interface.  A `none` *result* of a method model is a panic. -/

/-- `IsPrefix()` through the interface: panics on the nil interface; on a
wrapped node the receiver is non-nil, so `s != nil` yields true. -/
def ifaceIsPref : Option SimpleT → Option Bool
  | none => none
  | some _ => some true

/-- `IsWord()` through the interface. -/
def ifaceIsWord : Option SimpleT → Option Bool
  | none => none
  | some t => some t.isWord

/-- `Follow(c)` through the interface: panics on the nil interface; otherwise
runs the method body, producing either the nil interface (dead) or a wrapped
child. -/
def ifaceFollow (cm : CharMap) : Option SimpleT → Nat → Option (Option SimpleT)
  | none, _ => none
  | some t, c => some (followS cm (some t) c)

/-! ### The three builders' pipelines -/

/-- The root node allocated by `NewSimpleBuilder` / `NewSuffixCompressedBuilder`
/ `NewPackedBuilder`: `newSimple(cm.max())`. -/
def simpleRootT (cm : CharMap) : SimpleT := newSimple (cmMax cm)

/-- `(b packedBuilder) Root()`: compress, then pack (the stderr statistics have
no effect on the result). -/
def packedRootT (cm : CharMap) (t : SimpleT) : PackedN := fromSimpleT cm (compressT t)

/-- `AddWord` as a transition on the builder state `b.s`: the check loop only
reads, and both error paths return before any mutation, so the tree component
is unchanged there. -/
def addWordB (cm : CharMap) (t : SimpleT) (w : List Nat) : AddRes × SimpleT :=
  match checkChars cm w with
  | .crashed => (.crashed, t)
  | .bad => (.invalidChar, t)
  | .good => (.ok (insertW cm (cmMax cm) t w), insertW cm (cmMax cm) t w)

/-- The navigator `NewNavigator(tn)` produces: stack `[tn]`, empty prefix. -/
def newNavigator (tn : α) : Nav α := { root := tn, rest := [], pfx := [] }

/-- The tree holding exactly the word `"-"` (accepted by `NewAlphaCharMap`
as symbol 27). -/
def hyphenTree : SimpleT := (addWordB alphaCharMap (simpleRootT alphaCharMap) [45]).2

/-- The packed trie built from `hyphenTree`. -/
def hyphenPacked : PackedN := packedRootT alphaCharMap hyphenTree

/-- The words of the test dictionary `CAT, CAB, DOG, CABBAGE, CRIBBAGE`. -/
def demoWords : List (List Nat) :=
  [[67,65,84], [67,65,66], [68,79,71], [67,65,66,66,65,71,69], [67,82,73,66,66,65,71,69]]

/-- The simple trie built from `demoWords` over the reference alphabet. -/
def demoTree : SimpleT :=
  demoWords.foldl (fun t w => (addWordB alphaCharMap t w).2) (simpleRootT alphaCharMap)

theorem popN_pushN (ops : TrieOps α) (nav : Nav α) (c : Nat) :
    popN (pushN ops nav c) = some nav := by
  have hne : nav.pfx ++ [c] ≠ [] := by simp
  simp only [popN, pushN, hne, if_false]
  cases nav with
  | mk root rest pfx => simp

theorem avwGo_restores (ops : TrieOps α) (rec : Nav α → Option (Nav α × List (List Nat)))
    (hA : ∀ nav : Nav α, ∃ ws, rec nav = some (nav, ws)) :
    ∀ cs nav, ∃ ws, avwGo ops rec nav cs = some (nav, ws) := by
  intro cs
  induction cs with
  | nil => intro nav; exact ⟨[], by simp [avwGo]⟩
  | cons c cs ih =>
    intro nav
    obtain ⟨ws1, h1⟩ := hA (pushN ops nav c)
    obtain ⟨ws2, h2⟩ := ih nav
    refine ⟨ws1 ++ ws2, ?_⟩
    simp [avwGo, h1, popN_pushN, h2]

theorem avw_restores (ops : TrieOps α) : ∀ fuel (nav : Nav α),
    ∃ ws, avw ops fuel nav = some (nav, ws) := by
  intro fuel
  induction fuel with
  | zero => intro nav; exact ⟨[], by simp [avw]⟩
  | succ f ih =>
    intro nav
    by_cases h : navIsPref ops nav
    · obtain ⟨ws, hgo⟩ := avwGo_restores ops (avw ops f) ih azBytes nav
      refine ⟨(if navIsWord ops nav then [navWord nav] else []) ++ ws, ?_⟩
      simp [avw, h, hgo]
    · exact ⟨[], by simp [avw, h]⟩

/-! ## Claims -/

/-- Claim C7: for every navigator state and byte `c`, `Push(c)` immediately
followed by `Pop()` succeeds and restores the full navigator state, so
`Word()`, `IsWord()` and `IsPrefix()` are identical to their values before the
`Push`. -/
theorem c7_push_pop_exact (ops : TrieOps α) (nav : Nav α) (c : Nat) :
    popN (pushN ops nav c) = some nav ∧
    (popN (pushN ops nav c)).map navWord = some (navWord nav) ∧
    (popN (pushN ops nav c)).map (navIsWord ops) = some (navIsWord ops nav) ∧
    (popN (pushN ops nav c)).map (navIsPref ops) = some (navIsPref ops nav) := by
  refine ⟨popN_pushN ops nav c, ?_, ?_, ?_⟩ <;> rw [popN_pushN ops nav c] <;> rfl

/-- Claim C6: a complete enumeration never panics and returns the navigator
exactly as it started (prefix and node stack), for any node implementation and
any recursion bound; consequently enumerating or counting again from the state
the first enumeration left behind gives the same result as the first call. -/
theorem c6_enumeration_restores_state (ops : TrieOps α) (fuel : Nat) (nav : Nav α) :
    (∃ ws, avw ops fuel nav = some (nav, ws)) ∧
    ((avw ops fuel nav).bind fun p => avw ops fuel p.1) = avw ops fuel nav ∧
    ((avw ops fuel nav).bind fun p => countWords ops fuel p.1) = countWords ops fuel nav := by
  obtain ⟨ws, h⟩ := avw_restores ops fuel nav
  exact ⟨⟨ws, h⟩, by rw [h]; simp [h], by rw [h]; simp [countWords, h]⟩

/-- Claim C10: in the packed encoding the sentinel really is absorbing and
total (`Follow` maps it to itself, `IsWord` and `IsPrefix` are false).  In the
simple encoding, however, the sentinel produced by `Follow` is the nil
`TrieNode` interface, and *every* method call on it is a run-time panic
(`none`), so pushing past a dead position faults instead of answering. -/
theorem c10_sentinel_not_total (c : Nat) :
    (pFollow badNodeP c = badNodeP ∧ pIsWord badNodeP = false ∧ pIsPref badNodeP = false) ∧
    ifaceFollow alphaCharMap (some (simpleRootT alphaCharMap)) 65 = some none ∧
    ifaceIsPref none = none ∧ ifaceIsWord none = none ∧
    ifaceFollow alphaCharMap none 65 = none := by
  refine ⟨⟨rfl, rfl, rfl⟩, ?_, rfl, rfl, rfl⟩
  decide

/-- Claim C4: `AddWord` of a word containing the rune `'€'` (8364) panics
(indexing the 256-entry `CharMap` out of range in the check loop) — for every
starting tree — instead of returning the `InvalidCharacter` error the claim
requires for a word whose bytes are all rejected. -/
theorem c4_addword_rune_crash :
    (addWordB alphaCharMap (simpleRootT alphaCharMap) [8364]).1 = .crashed ∧
    ∀ t : SimpleT, (addWordB alphaCharMap t [8364]).1 ≠ .invalidChar := by
  constructor
  · rfl
  · intro t h
    simp only [addWordB, checkChars, cmRead] at h
    norm_num at h
    exact AddRes.noConfusion h

/-- Claim C3: enumeration does not cover the whole alphabet.  In the packed
trie holding exactly the word `"-"` (hyphen is symbol 27 of the reference
alphabet and the word was accepted by `AddWord`), the word `"-"` is reachable
from the root — `IsWord` after following it is true — yet `allValidWords`
yields nothing, because its loop pushes only the bytes `'A'..'Z'`. -/
theorem c3_enumeration_misses_hyphen :
    pIsWord (pFollowStar hyphenPacked [45]) = true ∧
    ((avw packedOps 8 (newNavigator hyphenPacked)).map fun p => p.2) = some [] := by
  exact ⟨by decide, by decide⟩

theorem getD_set_self {α : Type} (l : List α) (i : Nat) (a d : α) (h : i < l.length) :
    (l.set i a).getD i d = a := by
  simp [List.getD, List.getElem?_set, h]

theorem insertW_idem (cm : CharMap) (N : Nat) : ∀ (w : List Nat) (t : SimpleT),
    insertW cm N (insertW cm N t w) w = insertW cm N t w := by
  intro w
  induction w with
  | nil => intro t; cases t with | mk w0 cs => simp [insertW, SimpleT.children]
  | cons c rest ih =>
    intro t
    cases t with | mk w0 cs =>
    by_cases hi : cm c - 1 < cs.length
    · simp only [insertW, getD_set_self cs (cm c - 1) _ none hi]
      rw [List.set_set, ih]
    · have hle : cs.length ≤ cm c - 1 := Nat.le_of_not_lt hi
      simp only [insertW, List.set_eq_of_length_le hle]

/-- Claim C8: `AddWord` is idempotent: if a word was added successfully
(its characters all pass the check loop), re-adding it to the resulting tree
succeeds and returns exactly the same tree. -/
theorem c8_addword_idempotent (cm : CharMap) (t : SimpleT) (w : List Nat)
    (h : checkChars cm w = .good) :
    addWordB cm ((addWordB cm t w).2) w =
      (.ok ((addWordB cm t w).2), (addWordB cm t w).2) := by
  simp only [addWordB, h]
  rw [insertW_idem]

/-- Witness for C8 at the word `CAT` over the reference alphabet. -/
theorem c8_addword_idempotent_wit :
    addWordB alphaCharMap ((addWordB alphaCharMap (simpleRootT alphaCharMap) [67,65,84]).2) [67,65,84] =
      (.ok ((addWordB alphaCharMap (simpleRootT alphaCharMap) [67,65,84]).2),
       (addWordB alphaCharMap (simpleRootT alphaCharMap) [67,65,84]).2) :=
  c8_addword_idempotent alphaCharMap (simpleRootT alphaCharMap) [67,65,84] (by decide)

/-! ### Compression preserves the recognized language

On tree values, `nodesEqual` between trees of uniform child-array width
coincides with equality, so `insertNode` always returns a node equal (as a
tree) to its argument: merging changes sharing, never structure. -/

theorem nodesEqual_eq_aux (N : Nat) : ∀ n,
    (∀ s t : SimpleT, sizeOf s ≤ n → uniformT N s = true → uniformT N t = true →
      nodesEqual s t = true → s = t) ∧
    (∀ cs1 cs2 : List (Option SimpleT), sizeOf cs1 ≤ n → uniformK N cs1 = true →
      uniformK N cs2 = true → cs1.length = cs2.length →
      presenceEq cs1 cs2 = true → kidsEqual cs1 cs2 = true → cs1 = cs2) := by
  intro n
  induction n with
  | zero =>
    constructor
    · intro s t hs; cases s with | mk w cs => simp at hs
    · intro cs1 cs2 hs _ _ hlen _ _
      cases cs1 with
      | nil =>
        cases cs2 with
        | nil => rfl
        | cons y r2 => simp at hlen
      | cons x r => simp at hs
  | succ n ih =>
    constructor
    · intro s t hs hus hut hne
      by_cases hst : s = t
      · exact hst
      · cases s with | mk w1 cs1 =>
        cases t with | mk w2 cs2 =>
        simp only [nodesEqual, if_neg hst] at hne
        by_cases hw : (w1 != w2) = true
        · rw [if_pos hw] at hne; exact absurd hne (by simp)
        · rw [if_neg hw] at hne
          have hw' : w1 = w2 := by
            cases w1 <;> cases w2 <;> simp_all
          by_cases hp : presenceEq cs1 cs2 = true
          · rw [if_neg (by simp [hp])] at hne
            simp only [uniformT, Bool.and_eq_true, beq_iff_eq] at hus hut
            have hsz : sizeOf cs1 ≤ n := by
              simp only [SimpleT.mk.sizeOf_spec] at hs; omega
            have hlist := ih.2 cs1 cs2 hsz hus.2 hut.2
              (by rw [hus.1, hut.1]) hp hne
            rw [hw', hlist]
          · rw [if_pos (by simp [hp])] at hne
            exact absurd hne (by simp)
    · intro cs1 cs2 hs hu1 hu2 hlen hp hk
      cases cs1 with
      | nil =>
        cases cs2 with
        | nil => rfl
        | cons y r2 => simp at hlen
      | cons x r1 =>
        cases cs2 with
        | nil => simp at hlen
        | cons y r2 =>
          simp only [presenceEq, List.headD_cons, List.tail_cons,
            Bool.and_eq_true, beq_iff_eq] at hp
          have hsz : sizeOf r1 ≤ n := by
            simp only [List.cons.sizeOf_spec] at hs
            have : 0 < sizeOf x := by cases x <;> simp
            omega
          have hlen' : r1.length = r2.length := by simpa using hlen
          cases x with
          | none =>
            have hy : y = none := by
              cases y with
              | none => rfl
              | some d => simp at hp
            subst hy
            simp only [kidsEqual] at hk
            simp only [uniformK] at hu1 hu2
            rw [ih.2 r1 r2 hsz hu1 hu2 hlen' hp.2 hk]
          | some c =>
            cases y with
            | none => simp at hp
            | some d =>
              simp only [kidsEqual, List.headD_cons, List.tail_cons,
                Bool.and_eq_true] at hk
              simp only [uniformK, Bool.and_eq_true] at hu1 hu2
              have hszc : sizeOf c ≤ n := by
                simp only [List.cons.sizeOf_spec, Option.some.sizeOf_spec] at hs
                omega
              have hc : c = d := ih.1 c d hszc hu1.1 hu2.1 hk.1
              rw [hc, ih.2 r1 r2 hsz hu1.2 hu2.2 hlen' hp.2 hk.2]

theorem ctGet_subset {done : List (Nat × List SimpleT)} {h : Nat} {s : SimpleT}
    (hm : s ∈ ctGet done h) : ∃ p ∈ done, s ∈ p.2 := by
  unfold ctGet at hm
  cases hf : done.find? (fun p => p.1 == h) with
  | none => rw [hf] at hm; simp at hm
  | some p =>
    rw [hf] at hm
    exact ⟨p, List.mem_of_find?_eq_some hf, hm⟩

theorem ctPut_mem {done : List (Nat × List SimpleT)} {h : Nat} {b : List SimpleT}
    {p : Nat × List SimpleT} (hm : p ∈ ctPut done h b) : p = (h, b) ∨ p ∈ done := by
  induction done with
  | nil => simp [ctPut] at hm; exact Or.inl hm
  | cons q rest ih =>
    simp only [ctPut] at hm
    by_cases hq : q.1 = h
    · rw [if_pos hq] at hm
      rcases List.mem_cons.mp hm with h1 | h1
      · exact Or.inl h1
      · exact Or.inr (List.mem_cons_of_mem q h1)
    · rw [if_neg hq] at hm
      rcases List.mem_cons.mp hm with h1 | h1
      · exact Or.inr (h1 ▸ List.mem_cons_self q rest)
      · rcases ih h1 with h2 | h2
        · exact Or.inl h2
        · exact Or.inr (List.mem_cons_of_mem q h2)

theorem insertNodeC_spec (N : Nat) (ct : CompressTable) (t : SimpleT)
    (hct : CTInvP N ct) (ht : uniformT N t = true) :
    (insertNodeC ct t).1 = t ∧ CTInvP N (insertNodeC ct t).2 := by
  cases hf : (ctGet ct.done (hashT t)).find? (fun s => nodesEqual s t) with
  | some s =>
    have heq : insertNodeC ct t =
        (s, { ct with duplicates := ct.duplicates + 1 }) := by
      simp only [insertNodeC]
      rw [hf]
    have hmem : s ∈ ctGet ct.done (hashT t) := List.mem_of_find?_eq_some hf
    have hne : nodesEqual s t = true := by
      have := List.find?_some hf
      simpa using this
    obtain ⟨p, hp, hsp⟩ := ctGet_subset hmem
    have hus : uniformT N s = true := hct p hp s hsp
    have hst : s = t := (nodesEqual_eq_aux N (sizeOf s)).1 s t le_rfl hus ht hne
    rw [heq]
    exact ⟨hst, hct⟩
  | none =>
    have heq : insertNodeC ct t =
        (t, { ct with done := ctPut ct.done (hashT t) (ctGet ct.done (hashT t) ++ [t]),
                      nodes := ct.nodes + 1,
                      collisions := if (ctGet ct.done (hashT t)).isEmpty = true
                        then ct.collisions else ct.collisions + 1 }) := by
      simp only [insertNodeC]
      rw [hf]
    rw [heq]
    refine ⟨rfl, ?_⟩
    intro p hp s hsp
    rcases ctPut_mem hp with h1 | h1
    · subst h1
      rcases List.mem_append.mp hsp with h2 | h2
      · obtain ⟨q, hq, hsq⟩ := ctGet_subset h2
        exact hct q hq s hsq
      · rw [List.mem_singleton.mp h2]; exact ht
    · exact hct p h1 s hsp

theorem compress_id_aux (N : Nat) : ∀ n,
    (∀ (t : SimpleT) (ct : CompressTable), sizeOf t ≤ n → uniformT N t = true → CTInvP N ct →
      (compressNodeC ct t).1 = t ∧ CTInvP N (compressNodeC ct t).2) ∧
    (∀ (cs : List (Option SimpleT)) (ct : CompressTable), sizeOf cs ≤ n → uniformK N cs = true →
      CTInvP N ct →
      (compressKids ct cs).1 = cs ∧ CTInvP N (compressKids ct cs).2) := by
  intro n
  induction n with
  | zero =>
    constructor
    · intro t ct hs; cases t with | mk w cs => simp at hs
    · intro cs ct hs hu hct
      cases cs with
      | nil => exact ⟨rfl, hct⟩
      | cons x r => simp at hs
  | succ n ih =>
    constructor
    · intro t ct hs hu hct
      cases t with | mk w cs =>
      simp only [uniformT, Bool.and_eq_true, beq_iff_eq] at hu
      have hsz : sizeOf cs ≤ n := by
        simp only [SimpleT.mk.sizeOf_spec] at hs; omega
      obtain ⟨hkid1, hkid2⟩ := ih.2 cs ct hsz hu.2 hct
      simp only [compressNodeC]
      rw [hkid1]
      exact insertNodeC_spec N (compressKids ct cs).2 (.mk w cs) hkid2
        (by simp only [uniformT, Bool.and_eq_true, beq_iff_eq]; exact ⟨hu.1, hu.2⟩)
    · intro cs ct hs hu hct
      cases cs with
      | nil => exact ⟨rfl, hct⟩
      | cons x r =>
        cases x with
        | none =>
          simp only [uniformK] at hu
          have hsz : sizeOf r ≤ n := by
            simp only [List.cons.sizeOf_spec] at hs
            have : 0 < sizeOf (none : Option SimpleT) := by simp
            omega
          obtain ⟨h1, h2⟩ := ih.2 r ct hsz hu hct
          simp only [compressKids]
          exact ⟨by rw [h1], h2⟩
        | some c =>
          simp only [uniformK, Bool.and_eq_true] at hu
          have hszc : sizeOf c ≤ n := by
            simp only [List.cons.sizeOf_spec, Option.some.sizeOf_spec] at hs; omega
          have hszr : sizeOf r ≤ n := by
            simp only [List.cons.sizeOf_spec, Option.some.sizeOf_spec] at hs; omega
          obtain ⟨h1, h2⟩ := ih.1 c ct hszc hu.1 hct
          obtain ⟨h3, h4⟩ := ih.2 r (compressNodeC ct c).2 hszr hu.2 h2
          simp only [compressKids]
          exact ⟨by rw [h1, h3], h4⟩

/-- For a tree of uniform child-array width, compression returns the very same
tree value (`compress` merges pointers, never changing structure). -/
theorem compressT_id (N : Nat) (t : SimpleT) (h : uniformT N t = true) :
    compressT t = t := by
  have := (compress_id_aux N (sizeOf t)).1 t
    { done := [], duplicates := 0, nodes := 0, collisions := 0 }
    le_rfl h (by intro p hp; simp at hp)
  exact this.1

/-- Claim C2: compression does not change the recognized language: for every
byte string, `is_word` after following it from the compressed root equals
`is_word` from the original root (for trees of uniform child-array width — all
builder-produced trees).  In fact compression returns the identical tree value;
only pointer sharing changes. -/
theorem c2_compression_roundtrip (cm : CharMap) (N : Nat) (t : SimpleT)
    (h : uniformT N t = true) (bs : List Nat) :
    isWordS (followStarS cm (some (compressT t)) bs) =
      isWordS (followStarS cm (some t) bs) := by
  rw [compressT_id N t h]

/-- Witness for C2: the `CAB` query on the demo dictionary. -/
theorem c2_compression_roundtrip_wit :
    isWordS (followStarS alphaCharMap (some (compressT demoTree)) [67,65,66]) =
      isWordS (followStarS alphaCharMap (some demoTree) [67,65,66]) :=
  c2_compression_roundtrip alphaCharMap 28 demoTree (by decide) [67,65,66]

/-! ### Packed-table lemmas -/

theorem length_setKeyL (cells : List Nat) (p k : Nat) :
    (setKeyL cells p k).length = cells.length := by simp [setKeyL]

theorem length_setValL (cells : List Nat) (p v : Nat) :
    (setValL cells p v).length = cells.length := by simp [setValL]

theorem getD_setKeyL_ne (cells : List Nat) (p k q : Nat) (h : q ≠ p) :
    (setKeyL cells p k).getD q 0 = cells.getD q 0 := by
  simp [setKeyL, List.getD, List.getElem?_set, h.symm]

theorem getD_setValL_ne (cells : List Nat) (p v q : Nat) (h : q ≠ p) :
    (setValL cells p v).getD q 0 = cells.getD q 0 := by
  simp [setValL, List.getD, List.getElem?_set, h.symm]

theorem keyAt_setKeyL_self (cells : List Nat) (p k : Nat) (h : p < cells.length) :
    keyAt (setKeyL cells p k) p = k % 256 := by
  rw [keyAt, setKeyL, getD_set_self _ _ _ _ h]
  omega

theorem valAt_setKeyL (cells : List Nat) (p k q : Nat) :
    valAt (setKeyL cells p k) q = valAt cells q := by
  by_cases h : q = p
  · subst h
    by_cases hl : q < cells.length
    · rw [valAt, valAt, setKeyL, getD_set_self _ _ _ _ hl]
      omega
    · rw [valAt, valAt, setKeyL, List.set_eq_of_length_le (Nat.le_of_not_lt hl)]
  · rw [valAt, valAt, getD_setKeyL_ne cells p k q h]

theorem keyAt_setValL (cells : List Nat) (p v q : Nat) :
    keyAt (setValL cells p v) q = keyAt cells q := by
  by_cases h : q = p
  · subst h
    by_cases hl : q < cells.length
    · rw [keyAt, keyAt, setValL, getD_set_self _ _ _ _ hl]
      omega
    · rw [keyAt, keyAt, setValL, List.set_eq_of_length_le (Nat.le_of_not_lt hl)]
  · rw [keyAt, keyAt, getD_setValL_ne cells p v q h]

theorem valAt_setValL_self (cells : List Nat) (p v : Nat) (h : p < cells.length) :
    valAt (setValL cells p v) p = v % 2^24 := by
  rw [valAt, setValL, getD_set_self _ _ _ _ h]
  omega

theorem getD_replicate_zero (k q : Nat) : (List.replicate k (0:Nat)).getD q 0 = 0 := by
  simp only [List.getD, List.get?_eq_getElem?, List.getElem?_replicate]
  split <;> rfl

theorem getD_eq_zero_of_le (cells : List Nat) (q : Nat) (h : cells.length ≤ q) :
    cells.getD q 0 = 0 := by
  simp [List.getD, List.get?_eq_getElem?, List.getElem?_eq_none_iff.mpr h]

theorem getD_append_zeros (cells : List Nat) (k q : Nat) :
    (cells ++ List.replicate k 0).getD q 0 = cells.getD q 0 := by
  by_cases h : q < cells.length
  · exact List.getD_append cells _ 0 q h
  · rw [List.getD_append_right cells _ 0 q (Nat.le_of_not_lt h), getD_replicate_zero,
      getD_eq_zero_of_le cells q (Nat.le_of_not_lt h)]

theorem keyAt_append_zeros (cells : List Nat) (k q : Nat) :
    keyAt (cells ++ List.replicate k 0) q = keyAt cells q := by
  rw [keyAt, keyAt, getD_append_zeros]

theorem valAt_append_zeros (cells : List Nat) (k q : Nat) :
    valAt (cells ++ List.replicate k 0) q = valAt cells q := by
  rw [valAt, valAt, getD_append_zeros]

theorem keyAt_eq_zero_of_le (cells : List Nat) (q : Nat) (h : cells.length ≤ q) :
    keyAt cells q = 0 := by
  rw [keyAt, getD_eq_zero_of_le cells q h]

theorem fitsFrom_post (cells : List Nat) (w : Bool) (cs : List (Option SimpleT)) (i : Nat) :
    ∀ left j, fitsFrom cells w cs i j left = true →
      ∀ j', j ≤ j' → j' < j + left → i + j' < cells.length →
        keyAt cells (i + j') ≠ (j' + 1) % 256 ∧
        (liveSlot w cs j' → keyAt cells (i + j') = 0) := by
  intro left
  induction left with
  | zero => intro j _ j' h1 h2 _; omega
  | succ n ih =>
    intro j hfit j' h1 h2 hin
    rw [fitsFrom] at hfit
    split_ifs at hfit with hb hk h0 hw hc
    · omega
    · by_cases hj : j' = j
      · subst hj
        exact ⟨by rw [h0]; omega, fun _ => h0⟩
      · exact ih (j+1) hfit j' (by omega) (by omega) hin
    · by_cases hj : j' = j
      · subst hj
        refine ⟨hk, fun hl => ?_⟩
        rcases hl with ⟨hj0, hww⟩ | ⟨hj1, hcc⟩
        · exact absurd ⟨hj0, hww⟩ hw
        · exact absurd ⟨hj1, hcc⟩ hc
      · exact ih (j+1) hfit j' (by omega) (by omega) hin

theorem scanGo_post (cells : List Nat) (w : Bool) (cs : List (Option SimpleT)) (offset : Nat) :
    ∀ (fuel : Nat) (i : Int),
      scanGo cells w cs offset i fuel = cells.length ∨
      fitsAt cells w cs (scanGo cells w cs offset i fuel) = true := by
  intro fuel
  induction fuel with
  | zero => intro i; exact Or.inl rfl
  | succ n ih =>
    intro i
    rw [scanGo]
    split_ifs with h1 h2
    · exact Or.inr h2.2
    · exact ih (nextGap cells (i + offset) - offset)
    · exact Or.inl rfl

theorem ensureGo_append (i M : Nat) : ∀ (f : Nat) (cells : List Nat),
    ∃ k, ensureGo i M cells f = cells ++ List.replicate k 0 := by
  intro f
  induction f with
  | zero => intro cells; exact ⟨0, by simp [ensureGo]⟩
  | succ n ih =>
    intro cells
    rw [ensureGo]
    split_ifs with h
    · obtain ⟨k, hk⟩ := ih (cells ++ List.replicate M 0)
      exact ⟨M + k, by rw [hk, List.append_assoc, ← List.replicate_add]⟩
    · exact ⟨0, by simp⟩

theorem ensureGo_length (i M : Nat) (hM : 1 ≤ M) : ∀ (f : Nat) (cells : List Nat),
    i + M ≤ cells.length + f → i + M ≤ (ensureGo i M cells f).length := by
  intro f
  induction f with
  | zero => intro cells h; rw [ensureGo]; omega
  | succ n ih =>
    intro cells h
    rw [ensureGo]
    split_ifs with h1
    · exact ih (cells ++ List.replicate M 0) (by simp; omega)
    · omega

theorem ensureIndexL_append (cells : List Nat) (i M : Nat) :
    ∃ k, ensureIndexL cells i M = cells ++ List.replicate k 0 :=
  ensureGo_append i M _ cells

theorem ensureIndexL_length (cells : List Nat) (i M : Nat) (hM : 1 ≤ M) :
    i + M ≤ (ensureIndexL cells i M).length := by
  rw [ensureIndexL]
  exact ensureGo_length i M hM _ cells (by omega)

theorem findIndexT_base (cells : List Nat) (s : SimpleT) :
    (∃ k, (findIndexT cells s).2 = cells ++ List.replicate k 0) ∧
    (findIndexT cells s).1 + s.children.length + 1 ≤ (findIndexT cells s).2.length := by
  obtain ⟨k, hk⟩ := ensureIndexL_append cells
    (scanIdx cells s.isWord s.children (offsetOfS s) (nextGap cells (-1) - (offsetOfS s)))
    (s.children.length + 1)
  constructor
  · exact ⟨k, by rw [findIndexT]; exact hk⟩
  · have := ensureIndexL_length cells
      (scanIdx cells s.isWord s.children (offsetOfS s) (nextGap cells (-1) - (offsetOfS s)))
      (s.children.length + 1) (by omega)
    rw [findIndexT]
    dsimp only
    omega

theorem findIndexT_live (cells : List Nat) (s : SimpleT) :
    ∀ j, j ≤ s.children.length → liveSlot s.isWord s.children j →
      keyAt (findIndexT cells s).2 ((findIndexT cells s).1 + j) = 0 := by
  obtain ⟨⟨k, hgrow⟩, _⟩ := findIndexT_base cells s
  have hidx : (findIndexT cells s).1 =
      scanIdx cells s.isWord s.children (offsetOfS s) (nextGap cells (-1) - (offsetOfS s)) := by
    rw [findIndexT]
  intro j hj hlive
  rw [hidx, hgrow, keyAt_append_zeros]
  rcases scanGo_post cells s.isWord s.children (offsetOfS s) _ _ with hend | hfit
  · rw [scanIdx, hend]
    exact keyAt_eq_zero_of_le cells _ (by omega)
  · by_cases hin : scanIdx cells s.isWord s.children (offsetOfS s)
        (nextGap cells (-1) - (offsetOfS s)) + j < cells.length
    · exact (fitsFrom_post cells s.isWord s.children _ (s.children.length + 1) 0
        hfit j (by omega) (by omega) hin).2 hlive
    · exact keyAt_eq_zero_of_le cells _ (by omega)

theorem findIndexT_nocollide (cells : List Nat) (s : SimpleT)
    (hN : s.children.length ≤ 254) :
    ∀ j, j ≤ s.children.length →
      keyAt (findIndexT cells s).2 ((findIndexT cells s).1 + j) ≠ j + 1 := by
  obtain ⟨⟨k, hgrow⟩, _⟩ := findIndexT_base cells s
  have hidx : (findIndexT cells s).1 =
      scanIdx cells s.isWord s.children (offsetOfS s) (nextGap cells (-1) - (offsetOfS s)) := by
    rw [findIndexT]
  intro j hj
  rw [hidx, hgrow, keyAt_append_zeros]
  rcases scanGo_post cells s.isWord s.children (offsetOfS s) _ _ with hend | hfit
  · rw [scanIdx, hend]
    rw [keyAt_eq_zero_of_le cells _ (by omega)]
    omega
  · by_cases hin : scanIdx cells s.isWord s.children (offsetOfS s)
        (nextGap cells (-1) - (offsetOfS s)) + j < cells.length
    · have := (fitsFrom_post cells s.isWord s.children _ (s.children.length + 1) 0
        hfit j (by omega) (by omega) hin).1
      rwa [Nat.mod_eq_of_lt (by omega)] at this
    · rw [keyAt_eq_zero_of_le cells _ (by omega)]
      omega

theorem setChildKeys_length (idx : Nat) : ∀ (cs : List (Option SimpleT)) (pos : Nat) (cells : List Nat),
    (setChildKeys cells idx cs pos).length = cells.length := by
  intro cs
  induction cs with
  | nil => intro pos cells; rfl
  | cons x r ih =>
    intro pos cells
    cases x with
    | none => rw [setChildKeys]; exact ih (pos+1) cells
    | some c => rw [setChildKeys, ih (pos+1) _, length_setKeyL]

theorem setChildKeys_untouched (idx : Nat) :
    ∀ (cs : List (Option SimpleT)) (pos : Nat) (cells : List Nat) (q : Nat),
    (∀ i, i < cs.length → (cs.getD i none).isSome = true → q ≠ idx + pos + i + 1) →
    (setChildKeys cells idx cs pos).getD q 0 = cells.getD q 0 := by
  intro cs
  induction cs with
  | nil => intro pos cells q _; rfl
  | cons x r ih =>
    intro pos cells q hq
    cases x with
    | none =>
      rw [setChildKeys]
      refine ih (pos+1) cells q ?_
      intro i hi hs
      have := hq (i+1) (by simpa using hi) (by simpa using hs)
      omega
    | some c =>
      rw [setChildKeys]
      rw [ih (pos+1) _ q ?_]
      · exact getD_setKeyL_ne cells (idx+pos+1) (pos+2) q
          (by have := hq 0 (by simp) (by simp); omega)
      · intro i hi hs
        have := hq (i+1) (by simpa using hi) (by simpa using hs)
        omega

theorem setChildKeys_vals (idx : Nat) :
    ∀ (cs : List (Option SimpleT)) (pos : Nat) (cells : List Nat) (q : Nat),
    valAt (setChildKeys cells idx cs pos) q = valAt cells q := by
  intro cs
  induction cs with
  | nil => intro pos cells q; rfl
  | cons x r ih =>
    intro pos cells q
    cases x with
    | none => rw [setChildKeys]; exact ih (pos+1) cells q
    | some c => rw [setChildKeys, ih (pos+1) _ q, valAt_setKeyL]

theorem setChildKeys_written (idx : Nat) :
    ∀ (cs : List (Option SimpleT)) (pos : Nat) (cells : List Nat) (i : Nat),
    i < cs.length → (cs.getD i none).isSome = true → idx + pos + i + 1 < cells.length →
    keyAt (setChildKeys cells idx cs pos) (idx + pos + i + 1) = (pos + i + 2) % 256 := by
  intro cs
  induction cs with
  | nil => intro pos cells i hi; simp at hi
  | cons x r ih =>
    intro pos cells i hi hs hin
    cases i with
    | zero =>
      cases x with
      | none => simp at hs
      | some c =>
        rw [setChildKeys]
        have h1 : keyAt (setChildKeys (setKeyL cells (idx+pos+1) (pos+2)) idx r (pos+1))
            (idx + pos + 1) = keyAt (setKeyL cells (idx+pos+1) (pos+2)) (idx + pos + 1) := by
          rw [keyAt, keyAt, setChildKeys_untouched idx r (pos+1) _ _ ?_]
          intro i hi' _
          omega
        have h2 := keyAt_setKeyL_self cells (idx+pos+1) (pos+2) (by omega)
        have hq : idx + pos + 0 + 1 = idx + pos + 1 := by omega
        rw [hq, h1, h2]
    | succ i' =>
      have hi' : i' < r.length := by simpa using hi
      have hs' : (r.getD i' none).isSome = true := by simpa using hs
      cases x with
      | none =>
        rw [setChildKeys]
        have := ih (pos+1) cells i' hi' hs' (by omega)
        have hq : idx + pos + (i' + 1) + 1 = idx + (pos + 1) + i' + 1 := by omega
        rw [hq, this]
        congr 1
        omega
      | some c =>
        rw [setChildKeys]
        have := ih (pos+1) (setKeyL cells (idx+pos+1) (pos+2)) i' hi' hs'
          (by rw [length_setKeyL]; omega)
        have hq : idx + pos + (i' + 1) + 1 = idx + (pos + 1) + i' + 1 := by omega
        rw [hq, this]
        congr 1
        omega

theorem insertNodeP_memo (s : SimpleT) (st : PackSt) (h : lookupIdx st.indexes s ≠ 0) :
    insertNodeP s st = (lookupIdx st.indexes s - 1, st) := by
  cases s with | mk w cs => rw [insertNodeP, if_pos h]

theorem insertNodeP_fresh (w : Bool) (cs : List (Option SimpleT)) (st : PackSt)
    (h : lookupIdx st.indexes (.mk w cs) = 0) :
    insertNodeP (.mk w cs) st =
      ((findIndexT st.cells (.mk w cs)).1,
       insertKidsP cs 0 (findIndexT st.cells (.mk w cs)).1
         { cells := setChildKeys
             (if w then setKeyL (findIndexT st.cells (.mk w cs)).2
                (findIndexT st.cells (.mk w cs)).1 1
              else (findIndexT st.cells (.mk w cs)).2)
             (findIndexT st.cells (.mk w cs)).1 cs 0,
           indexes := (SimpleT.mk w cs, (findIndexT st.cells (.mk w cs)).1 + 1) :: st.indexes }) := by
  rw [insertNodeP, if_neg (by rw [h]; exact fun hc => hc rfl)]

theorem insertP_frame : ∀ n,
    (∀ (s : SimpleT) (st : PackSt), sizeOf s ≤ n →
      st.cells.length ≤ (insertNodeP s st).2.cells.length ∧
      (∀ p, keyAt st.cells p ≠ 0 →
        (insertNodeP s st).2.cells.getD p 0 = st.cells.getD p 0)) ∧
    (∀ (cs : List (Option SimpleT)) (pos idx : Nat) (st : PackSt), sizeOf cs ≤ n →
      st.cells.length ≤ (insertKidsP cs pos idx st).cells.length ∧
      (∀ p, keyAt st.cells p ≠ 0 →
        (∀ i, i < cs.length → (cs.getD i none).isSome = true → p ≠ idx + pos + i + 1) →
        (insertKidsP cs pos idx st).cells.getD p 0 = st.cells.getD p 0) ∧
      (∀ p, keyAt st.cells p ≠ 0 →
        keyAt (insertKidsP cs pos idx st).cells p = keyAt st.cells p)) := by
  intro n
  induction n with
  | zero =>
    constructor
    · intro s st hs; cases s with | mk w cs => simp at hs
    · intro cs pos idx st hs
      cases cs with
      | nil => exact ⟨le_rfl, fun p _ _ => rfl, fun p _ => rfl⟩
      | cons x r => simp at hs
  | succ n ih =>
    constructor
    · -- insertNodeP
      intro s st hs
      cases s with | mk w cs =>
      by_cases hm : lookupIdx st.indexes (.mk w cs) = 0
      · rw [insertNodeP_fresh w cs st hm]
        dsimp only
        obtain ⟨⟨k, hgrow⟩, hflen⟩ := findIndexT_base st.cells (.mk w cs)
        have hlive := findIndexT_live st.cells (.mk w cs)
        have hc2len : (if w then setKeyL (findIndexT st.cells (.mk w cs)).2
            (findIndexT st.cells (.mk w cs)).1 1
            else (findIndexT st.cells (.mk w cs)).2).length =
            (findIndexT st.cells (.mk w cs)).2.length := by
          split <;> simp [length_setKeyL]
        have hc3len : (setChildKeys
            (if w then setKeyL (findIndexT st.cells (.mk w cs)).2
              (findIndexT st.cells (.mk w cs)).1 1
             else (findIndexT st.cells (.mk w cs)).2)
            (findIndexT st.cells (.mk w cs)).1 cs 0).length =
            (findIndexT st.cells (.mk w cs)).2.length := by
          rw [setChildKeys_length, hc2len]
        have hkids := ih.2 cs 0 (findIndexT st.cells (.mk w cs)).1
          { cells := setChildKeys
              (if w then setKeyL (findIndexT st.cells (.mk w cs)).2
                (findIndexT st.cells (.mk w cs)).1 1
               else (findIndexT st.cells (.mk w cs)).2)
              (findIndexT st.cells (.mk w cs)).1 cs 0,
            indexes := (SimpleT.mk w cs, (findIndexT st.cells (.mk w cs)).1 + 1) :: st.indexes }
          (by simp only [SimpleT.mk.sizeOf_spec] at hs; omega)
        have hkidsLen := hkids.1
        have hkidsFrozen := hkids.2.1
        dsimp only at hkidsLen hkidsFrozen
        constructor
        · -- length
          refine le_trans ?_ hkidsLen
          rw [hc3len, hgrow]
          simp
        · -- frozen cells
          intro p hp
          have hpin : p < st.cells.length := by
            by_contra hc
            exact hp (keyAt_eq_zero_of_le st.cells p (Nat.le_of_not_lt hc))
          have f1 : (findIndexT st.cells (.mk w cs)).2.getD p 0 = st.cells.getD p 0 := by
            rw [hgrow, getD_append_zeros]
          have f1k : keyAt (findIndexT st.cells (.mk w cs)).2 p = keyAt st.cells p := by
            simp only [keyAt]
            rw [f1]
          have hpw : w = true → p ≠ (findIndexT st.cells (.mk w cs)).1 := by
            intro hw hcontra
            have h0 := hlive 0 (by omega) (Or.inl ⟨rfl, hw⟩)
            simp only [Nat.add_zero] at h0
            rw [← hcontra, f1k] at h0
            exact hp h0
          have f2 : (if w then setKeyL (findIndexT st.cells (.mk w cs)).2
              (findIndexT st.cells (.mk w cs)).1 1
              else (findIndexT st.cells (.mk w cs)).2).getD p 0 =
              (findIndexT st.cells (.mk w cs)).2.getD p 0 := by
            split
            · exact getD_setKeyL_ne _ _ _ p (hpw (by assumption))
            · rfl
          have hpc : ∀ i, i < cs.length → (cs.getD i none).isSome = true →
              p ≠ (findIndexT st.cells (.mk w cs)).1 + i + 1 := by
            intro i hi hsome hcontra
            have hl := hlive (i+1) (by simp only [SimpleT.children]; omega)
              (Or.inr ⟨by omega, by simpa [SimpleT.children] using hsome⟩)
            have hps : p = (findIndexT st.cells (.mk w cs)).1 + (i+1) := by omega
            rw [← hps, f1k] at hl
            exact hp hl
          have f3 : (setChildKeys
              (if w then setKeyL (findIndexT st.cells (.mk w cs)).2
                (findIndexT st.cells (.mk w cs)).1 1
               else (findIndexT st.cells (.mk w cs)).2)
              (findIndexT st.cells (.mk w cs)).1 cs 0).getD p 0 = st.cells.getD p 0 := by
            rw [setChildKeys_untouched _ cs 0 _ p (by
              intro i hi hsome
              have := hpc i hi hsome
              omega), f2, f1]
          have f3k : keyAt (setChildKeys
              (if w then setKeyL (findIndexT st.cells (.mk w cs)).2
                (findIndexT st.cells (.mk w cs)).1 1
               else (findIndexT st.cells (.mk w cs)).2)
              (findIndexT st.cells (.mk w cs)).1 cs 0) p ≠ 0 := by
            simp only [keyAt]
            rw [f3]
            exact hp
          rw [hkidsFrozen p f3k (by
            intro i hi hsome
            have := hpc i hi hsome
            omega)]
          exact f3
      · rw [insertNodeP_memo _ _ hm]
        exact ⟨le_rfl, fun p _ => rfl⟩
    · -- insertKidsP
      intro cs pos idx st hs
      cases cs with
      | nil => exact ⟨le_rfl, fun p _ _ => rfl, fun p _ => rfl⟩
      | cons x r =>
        cases x with
        | none =>
          rw [insertKidsP]
          have hr := ih.2 r (pos+1) idx st (by simp at hs; omega)
          refine ⟨hr.1, ?_, hr.2.2⟩
          intro p hp hex
          refine hr.2.1 p hp ?_
          intro i hi hsome
          have := hex (i+1) (by simpa using hi) (by simpa using hsome)
          omega
        | some c =>
          rw [insertKidsP]
          dsimp only
          have hnode := ih.1 c st (by simp at hs; omega)
          have hr := ih.2 r (pos+1) idx
            { cells := setValL (insertNodeP c st).2.cells (idx+pos+1) (insertNodeP c st).1,
              indexes := (insertNodeP c st).2.indexes }
            (by simp at hs; omega)
          have hrLen := hr.1
          have hrFrozen := hr.2.1
          have hrKeys := hr.2.2
          dsimp only at hrLen hrFrozen hrKeys
          refine ⟨?_, ?_, ?_⟩
          · refine le_trans hnode.1 (le_trans ?_ hrLen)
            rw [length_setValL]
          · intro p hp hex
            have hppos : p ≠ idx + pos + 1 := by
              have := hex 0 (by simp) (by simp)
              omega
            have g1 : (insertNodeP c st).2.cells.getD p 0 = st.cells.getD p 0 :=
              hnode.2 p hp
            have g1k : keyAt (setValL (insertNodeP c st).2.cells (idx+pos+1)
                (insertNodeP c st).1) p ≠ 0 := by
              simp only [keyAt]
              rw [getD_setValL_ne _ _ _ p hppos, g1]
              exact hp
            rw [hrFrozen p g1k (by
              intro i hi hsome
              have := hex (i+1) (by simpa using hi) (by simpa using hsome)
              omega)]
            rw [getD_setValL_ne _ _ _ p hppos, g1]
          · intro p hp
            have g1 : (insertNodeP c st).2.cells.getD p 0 = st.cells.getD p 0 :=
              hnode.2 p hp
            have g1k : keyAt (setValL (insertNodeP c st).2.cells (idx+pos+1)
                (insertNodeP c st).1) p = keyAt st.cells p := by
              rw [keyAt_setValL]
              simp only [keyAt]
              rw [g1]
            rw [hrKeys p (by rw [g1k]; exact hp), g1k]

/-- Claim C5: packed construction is append-only.  (a) `findIndex` only
accepts a base where no offset `j ∈ [0, N]` already carries key `j+1` and
every live slot of the node (terminal flag, present children) lands on an
empty (key 0) cell; (b) consequently a cell's key, once nonzero, is never
changed by any later node placement during `insertNode`. -/
theorem c5_append_only_construction (cells : List Nat) (s : SimpleT) (st : PackSt)
    (hN : s.children.length ≤ 254) :
    (∀ j, j ≤ s.children.length →
      keyAt (findIndexT cells s).2 ((findIndexT cells s).1 + j) ≠ j + 1 ∧
      (liveSlot s.isWord s.children j →
        keyAt (findIndexT cells s).2 ((findIndexT cells s).1 + j) = 0)) ∧
    (∀ p, keyAt st.cells p ≠ 0 →
      keyAt (insertNodeP s st).2.cells p = keyAt st.cells p) := by
  constructor
  · intro j hj
    exact ⟨findIndexT_nocollide cells s hN j hj, findIndexT_live cells s j hj⟩
  · intro p hp
    have h := ((insertP_frame (sizeOf s)).1 s st le_rfl).2 p hp
    simp only [keyAt]
    rw [h]

/-- Witness for C5 at the demo dictionary tree and the empty table. -/
theorem c5_append_only_construction_wit :
    (∀ j, j ≤ demoTree.children.length →
      keyAt (findIndexT [] demoTree).2 ((findIndexT [] demoTree).1 + j) ≠ j + 1 ∧
      (liveSlot demoTree.isWord demoTree.children j →
        keyAt (findIndexT [] demoTree).2 ((findIndexT [] demoTree).1 + j) = 0)) ∧
    (∀ p, keyAt (PackSt.mk [] []).cells p ≠ 0 →
      keyAt (insertNodeP demoTree (PackSt.mk [] [])).2.cells p =
        keyAt (PackSt.mk [] []).cells p) :=
  c5_append_only_construction [] demoTree (PackSt.mk [] []) (by decide)

theorem insertNodeP_fresh' (w : Bool) (cs : List (Option SimpleT)) (st : PackSt)
    (h : lookupIdx st.indexes (.mk w cs) = 0) :
    insertNodeP (.mk w cs) st =
      ((findIndexT st.cells (.mk w cs)).1,
       insertKidsP cs 0 (findIndexT st.cells (.mk w cs)).1
         { cells := freshCells st w cs,
           indexes := (SimpleT.mk w cs, (findIndexT st.cells (.mk w cs)).1 + 1) :: st.indexes }) :=
  insertNodeP_fresh w cs st h

theorem freshCells_len (st : PackSt) (w : Bool) (cs : List (Option SimpleT)) :
    (freshCells st w cs).length = (findIndexT st.cells (.mk w cs)).2.length := by
  rw [freshCells, setChildKeys_length]
  split <;> simp [length_setKeyL]

theorem freshCells_word (st : PackSt) (w : Bool) (cs : List (Option SimpleT)) (hw : w = true) :
    keyAt (freshCells st w cs) (findIndexT st.cells (.mk w cs)).1 = 1 := by
  subst hw
  have hlen := (findIndexT_base st.cells (.mk true cs)).2
  simp only [SimpleT.children] at hlen
  have h1 : keyAt (freshCells st true cs) (findIndexT st.cells (.mk true cs)).1 =
      keyAt (setKeyL (findIndexT st.cells (.mk true cs)).2
        (findIndexT st.cells (.mk true cs)).1 1)
        (findIndexT st.cells (.mk true cs)).1 := by
    simp only [keyAt, freshCells, if_pos]
    rw [setChildKeys_untouched _ cs 0 _ _ (by intro i hi hs; omega)]
  rw [h1, keyAt_setKeyL_self _ _ _ (by omega)]

theorem freshCells_notword (st : PackSt) (w : Bool) (cs : List (Option SimpleT)) (hw : w = false) :
    keyAt (freshCells st w cs) (findIndexT st.cells (.mk w cs)).1 =
      keyAt (findIndexT st.cells (.mk w cs)).2 (findIndexT st.cells (.mk w cs)).1 := by
  subst hw
  simp only [keyAt, freshCells]
  rw [setChildKeys_untouched _ cs 0 _ _ (by intro i hi hs; omega)]
  simp

theorem freshCells_child (st : PackSt) (w : Bool) (cs : List (Option SimpleT)) (i : Nat)
    (hi : i < cs.length) (hs : (cs.getD i none).isSome = true) (hN : cs.length ≤ 254) :
    keyAt (freshCells st w cs) ((findIndexT st.cells (.mk w cs)).1 + i + 1) = i + 2 := by
  have hlen := (findIndexT_base st.cells (.mk w cs)).2
  simp only [SimpleT.children] at hlen
  have hbound : (findIndexT st.cells (.mk w cs)).1 + 0 + i + 1 <
      (if w then setKeyL (findIndexT st.cells (.mk w cs)).2
        (findIndexT st.cells (.mk w cs)).1 1 else (findIndexT st.cells (.mk w cs)).2).length := by
    split
    · rw [length_setKeyL]; omega
    · omega
  have hkey := setChildKeys_written (findIndexT st.cells (.mk w cs)).1 cs 0 _ i hi hs hbound
  have harith : (findIndexT st.cells (.mk w cs)).1 + 0 + i + 1 =
      (findIndexT st.cells (.mk w cs)).1 + i + 1 := by omega
  rw [harith] at hkey
  rw [freshCells, hkey, Nat.mod_eq_of_lt (by omega)]
  omega

theorem freshCells_other (st : PackSt) (w : Bool) (cs : List (Option SimpleT)) (q : Nat)
    (hq0 : w = true → q ≠ (findIndexT st.cells (.mk w cs)).1)
    (hqc : ∀ i, i < cs.length → (cs.getD i none).isSome = true →
      q ≠ (findIndexT st.cells (.mk w cs)).1 + i + 1) :
    (freshCells st w cs).getD q 0 = (findIndexT st.cells (.mk w cs)).2.getD q 0 := by
  rw [freshCells, setChildKeys_untouched _ cs 0 _ q
    (by intro i hi hs; have := hqc i hi hs; omega)]
  split
  · exact getD_setKeyL_ne _ _ _ q (hq0 (by assumption))
  · rfl

theorem freshCells_frozen (st : PackSt) (w : Bool) (cs : List (Option SimpleT)) (p : Nat)
    (hp : keyAt st.cells p ≠ 0) :
    (freshCells st w cs).getD p 0 = st.cells.getD p 0 := by
  obtain ⟨⟨k, hgrow⟩, hflen⟩ := findIndexT_base st.cells (.mk w cs)
  have hlive := findIndexT_live st.cells (.mk w cs)
  have f1 : (findIndexT st.cells (.mk w cs)).2.getD p 0 = st.cells.getD p 0 := by
    rw [hgrow, getD_append_zeros]
  have f1k : keyAt (findIndexT st.cells (.mk w cs)).2 p = keyAt st.cells p := by
    simp only [keyAt]; rw [f1]
  rw [freshCells_other st w cs p ?_ ?_, f1]
  · intro hw hcontra
    have h0 := hlive 0 (by omega) (Or.inl ⟨rfl, hw⟩)
    simp only [Nat.add_zero] at h0
    rw [← hcontra, f1k] at h0
    exact hp h0
  · intro i hi hsome hcontra
    have hl := hlive (i+1) (by simp only [SimpleT.children]; omega)
      (Or.inr ⟨by omega, by simpa [SimpleT.children] using hsome⟩)
    have hps : p = (findIndexT st.cells (.mk w cs)).1 + (i+1) := by omega
    rw [← hps, f1k] at hl
    exact hp hl

/-! ### Lookup-table lemmas -/

theorem lookupIdx_cons (a : SimpleT) (v : Nat) (ixs : List (SimpleT × Nat)) (z : SimpleT) :
    lookupIdx ((a, v) :: ixs) z = if a = z then v else lookupIdx ixs z := by
  by_cases h : a = z
  · simp [lookupIdx, List.find?_cons_of_pos, h]
  · rw [lookupIdx, List.find?_cons_of_neg _ (by simpa using h), if_neg h, lookupIdx]

theorem lookupIdx_mem (ixs : List (SimpleT × Nat)) (z : SimpleT)
    (hv : lookupIdx ixs z ≠ 0) : (z, lookupIdx ixs z) ∈ ixs := by
  induction ixs with
  | nil => simp [lookupIdx] at hv
  | cons p rest ih =>
    obtain ⟨a, v⟩ := p
    rw [lookupIdx_cons] at hv ⊢
    by_cases h : a = z
    · rw [if_pos h]
      rw [if_pos h] at hv
      exact h ▸ List.mem_cons_self _ _
    · rw [if_neg h]
      rw [if_neg h] at hv
      exact List.mem_cons_of_mem _ (ih hv)

theorem mem_lookupIdx (ixs : List (SimpleT × Nat)) (hnd : (ixs.map Prod.fst).Nodup)
    (z : SimpleT) (v : Nat) (h : (z, v) ∈ ixs) : lookupIdx ixs z = v := by
  induction ixs with
  | nil => simp at h
  | cons p rest ih =>
    obtain ⟨a, w⟩ := p
    rw [lookupIdx_cons]
    rcases List.mem_cons.mp h with h1 | h1
    · rw [if_pos (by injection h1 with h2 _; exact h2.symm)]
      injection h1 with _ h3
      exact h3.symm
    · have hz : z ∈ rest.map Prod.fst := List.mem_map.mpr ⟨(z, v), h1, rfl⟩
      have ha : a ≠ z := by
        intro hc
        subst hc
        exact (List.nodup_cons.mp hnd).1 hz
      rw [if_neg ha]
      exact ih (List.nodup_cons.mp hnd).2 h1

theorem lookupIdx_extend (new old : List (SimpleT × Nat))
    (hfresh : ∀ z vz, (z, vz) ∈ new → lookupIdx old z = 0) (z : SimpleT)
    (h : lookupIdx old z ≠ 0) :
    lookupIdx (new ++ old) z = lookupIdx old z := by
  induction new with
  | nil => rfl
  | cons p rest ih =>
    obtain ⟨a, va⟩ := p
    rw [List.cons_append, lookupIdx_cons]
    have ha : a ≠ z := by
      intro hc
      subst hc
      exact h (hfresh a va (List.mem_cons_self _ _))
    rw [if_neg ha]
    exact ih (fun z' vz' hm => hfresh z' vz' (List.mem_cons_of_mem _ hm))

theorem lookupIdx_zero_not_mem (ixs : List (SimpleT × Nat))
    (hpos : ∀ x v, (x, v) ∈ ixs → 1 ≤ v) (z : SimpleT) (h : lookupIdx ixs z = 0) :
    z ∉ ixs.map Prod.fst := by
  induction ixs with
  | nil => simp
  | cons p rest ih =>
    obtain ⟨a, va⟩ := p
    rw [lookupIdx_cons] at h
    by_cases ha : a = z
    · rw [if_pos ha] at h
      subst h
      have := hpos a 0 (List.mem_cons_self _ _)
      omega
    · rw [if_neg ha] at h
      simp only [List.map_cons, List.mem_cons]
      rintro (hc | hc)
      · exact ha hc.symm
      · exact ih (fun x v hm => hpos x v (List.mem_cons_of_mem _ hm)) h hc

theorem any_isSome_index (cs : List (Option SimpleT)) (h : cs.any Option.isSome = true) :
    ∃ i, i < cs.length ∧ (cs.getD i none).isSome = true := by
  induction cs with
  | nil => simp at h
  | cons x r ih =>
    rw [List.any_cons, Bool.or_eq_true] at h
    rcases h with h1 | h1
    · exact ⟨0, by simp, by simpa using h1⟩
    · obtain ⟨i, hi, hs⟩ := ih h1
      exact ⟨i+1, by simp; omega, by simpa using hs⟩

/-- A live node with its keys in the table pins down a nonzero key `j+1` at
some offset `j ≤ N` from its base — the fact `findIndex`'s rejection clause
keys on. -/
theorem live_key_exists (N : Nat) (cellsL : List Nat) (y : SimpleT) (b : Nat)
    (hu : uniformT N y = true) (hl : liveB y = true) (hk : keysOkAt cellsL y b) :
    ∃ j, j ≤ N ∧ keyAt cellsL (b + j) = j + 1 := by
  rw [liveB, Bool.or_eq_true] at hl
  rcases hl with hw | hany
  · exact ⟨0, by omega, by simpa using hk.1 hw⟩
  · obtain ⟨i, hi, hs⟩ := any_isSome_index y.children hany
    have hN : y.children.length = N := by
      cases y with | mk w cs =>
      simp only [uniformT, Bool.and_eq_true, beq_iff_eq] at hu
      simpa [SimpleT.children] using hu.1
    refine ⟨i+1, by omega, ?_⟩
    have := (hk.2.2 i hi).1 hs
    have harith : b + (i+1) = b + i + 1 := by omega
    rw [harith, this]

/-- Placing a fresh node (finding a base, recording it, writing its keys)
preserves the global invariant, with the new node pending. -/
theorem GInv_fresh_step (N : Nat) (hN : N ≤ 254) (st : PackSt) (pend : List SimpleT)
    (w : Bool) (cs : List (Option SimpleT))
    (hu : uniformT N (.mk w cs) = true) (hl : liveB (.mk w cs) = true)
    (hg : goodKidsT (.mk w cs) = true)
    (hG : GInv N st pend) (hm : lookupIdx st.indexes (.mk w cs) = 0) :
    GInv N { cells := freshCells st w cs,
             indexes := (SimpleT.mk w cs, (findIndexT st.cells (.mk w cs)).1 + 1) :: st.indexes }
      (SimpleT.mk w cs :: pend) := by
  obtain ⟨hnd, hbi, hent⟩ := hG
  have hNlen : cs.length = N := by
    simp only [uniformT, Bool.and_eq_true, beq_iff_eq] at hu; exact hu.1
  obtain ⟨⟨k, hgrow⟩, hflen⟩ := findIndexT_base st.cells (.mk w cs)
  simp only [SimpleT.children] at hflen
  have hnoc := findIndexT_nocollide st.cells (.mk w cs) (by simp [SimpleT.children]; omega)
  simp only [SimpleT.children] at hnoc
  have hkeyfid : ∀ q, keyAt (findIndexT st.cells (.mk w cs)).2 q = keyAt st.cells q := by
    intro q; rw [hgrow, keyAt_append_zeros]
  have hfrozen := freshCells_frozen st w cs
  have hfrozK : ∀ p, keyAt st.cells p ≠ 0 → keyAt (freshCells st w cs) p = keyAt st.cells p := by
    intro p hp; simp only [keyAt]; rw [hfrozen p hp]
  have hfrozV : ∀ p, keyAt st.cells p ≠ 0 → valAt (freshCells st w cs) p = valAt st.cells p := by
    intro p hp; simp only [valAt]; rw [hfrozen p hp]
  have hlen2 : st.cells.length ≤ (freshCells st w cs).length := by
    rw [freshCells_len, hgrow]; simp
  have hpos1 : ∀ x v, (x, v) ∈ st.indexes → 1 ≤ v := fun x v hm' => (hent x v hm').1
  have hsfresh : SimpleT.mk w cs ∉ st.indexes.map Prod.fst :=
    lookupIdx_zero_not_mem st.indexes hpos1 _ hm
  have hbne : ∀ y iy1, (y, iy1) ∈ st.indexes →
      iy1 ≠ (findIndexT st.cells (.mk w cs)).1 + 1 := by
    intro y iy1 hmem hcontra
    obtain ⟨h1, h2, h3, h4, h5, h6, h7⟩ := hent y iy1 hmem
    obtain ⟨j, hj, hkey⟩ := live_key_exists N st.cells y (iy1 - 1) h3 h4 h6
    have hj2 := hnoc j (by omega)
    rw [hkeyfid] at hj2
    have harith : (findIndexT st.cells (.mk w cs)).1 + j = iy1 - 1 + j := by omega
    rw [harith, hkey] at hj2
    exact hj2 rfl
  have hchar : ∀ q, keyAt (freshCells st w cs) q = keyAt st.cells q ∨
      (w = true ∧ q = (findIndexT st.cells (.mk w cs)).1 ∧
        keyAt (freshCells st w cs) q = 1) ∨
      (∃ i, i < cs.length ∧ (cs.getD i none).isSome = true ∧
        q = (findIndexT st.cells (.mk w cs)).1 + i + 1 ∧
        keyAt (freshCells st w cs) q = i + 2) := by
    intro q
    by_cases hq0 : w = true ∧ q = (findIndexT st.cells (.mk w cs)).1
    · exact Or.inr (Or.inl ⟨hq0.1, hq0.2, hq0.2 ▸ freshCells_word st w cs hq0.1⟩)
    · by_cases hqc : ∃ i, i < cs.length ∧ (cs.getD i none).isSome = true ∧
          q = (findIndexT st.cells (.mk w cs)).1 + i + 1
      · obtain ⟨i, hi, hs, hq⟩ := hqc
        exact Or.inr (Or.inr ⟨i, hi, hs, hq,
          hq ▸ freshCells_child st w cs i hi hs (by omega)⟩)
      · left
        have hoth := freshCells_other st w cs q (fun hw hq => hq0 ⟨hw, hq⟩)
          (fun i hi hs hq => hqc ⟨i, hi, hs, hq⟩)
        simp only [keyAt]
        rw [hoth, hgrow, getD_append_zeros]
  refine ⟨?_, ?_, ?_⟩
  · simp only [List.map_cons]
    exact List.nodup_cons.mpr ⟨hsfresh, hnd⟩
  · intro x ix1 y iy1 hx hy hxy
    rcases List.mem_cons.mp hx with hx1 | hx1 <;> rcases List.mem_cons.mp hy with hy1 | hy1
    · exfalso
      injection hx1 with hx2 _
      injection hy1 with hy2 _
      exact hxy (hx2.trans hy2.symm)
    · injection hx1 with _ hx3
      rw [hx3]
      exact fun hc => hbne y iy1 hy1 hc.symm
    · injection hy1 with _ hy3
      rw [hy3]
      exact hbne x ix1 hx1
    · exact hbi x ix1 y iy1 hx1 hy1 hxy
  · intro x ix1 hx
    rcases List.mem_cons.mp hx with hx1 | hx1
    · -- the freshly placed node
      injection hx1 with hx2 hx3
      subst hx2
      subst hx3
      refine ⟨by omega, ?_, hu, hl, hg, ?_, ?_⟩
      · dsimp only
        rw [freshCells_len]
        simp only [SimpleT.children, Nat.add_sub_cancel]
        omega
      · refine ⟨?_, ?_, ?_⟩
        · intro hw
          simp only [Nat.add_sub_cancel]
          exact freshCells_word st w cs hw
        · intro hw
          simp only [Nat.add_sub_cancel]
          rw [freshCells_notword st w cs hw]
          have := hnoc 0 (by omega)
          simpa using this
        · intro i hi
          simp only [SimpleT.children] at hi
          constructor
          · intro hs
            simp only [SimpleT.children] at hs
            simp only [Nat.add_sub_cancel]
            exact freshCells_child st w cs i hi hs (by omega)
          · intro hnone
            simp only [SimpleT.children] at hnone
            simp only [Nat.add_sub_cancel]
            rcases hchar ((findIndexT st.cells (.mk w cs)).1 + i + 1) with
              hc | ⟨_, hcq, _⟩ | ⟨i', hi', hs', hq', hck⟩
            · rw [hc]
              have := hnoc (i+1) (by omega)
              rw [hkeyfid] at this
              have harith : (findIndexT st.cells (.mk w cs)).1 + (i+1) =
                  (findIndexT st.cells (.mk w cs)).1 + i + 1 := by omega
              rw [harith] at this
              simpa using this
            · omega
            · rw [hck]
              intro hcontra
              have hii : i' = i := by omega
              subst hii
              rw [hnone] at hs'
              simp at hs'
      · intro hnp
        exact absurd (List.mem_cons_self _ _) hnp
    · -- an old entry
      obtain ⟨h1, h2, h3, h4, h5, h6, h7⟩ := hent x ix1 hx1
      refine ⟨h1, ?_, h3, h4, h5, ?_, ?_⟩
      · dsimp only; omega
      · refine ⟨?_, ?_, ?_⟩
        · intro hw
          have hkne : keyAt st.cells (ix1-1) ≠ 0 := by rw [h6.1 hw]; omega
          dsimp only
          rw [hfrozK _ hkne]
          exact h6.1 hw
        · intro hw
          dsimp only
          rcases hchar (ix1-1) with hc | ⟨_, hcq, hck⟩ | ⟨i', hi', _, hq', hck⟩
          · rw [hc]; exact h6.2.1 hw
          · exfalso
            exact hbne x ix1 hx1 (by omega)
          · rw [hck]; omega
        · intro i hi
          constructor
          · intro hs
            have hkne : keyAt st.cells (ix1-1+i+1) ≠ 0 := by
              rw [(h6.2.2 i hi).1 hs]; omega
            dsimp only
            rw [hfrozK _ hkne]
            exact (h6.2.2 i hi).1 hs
          · intro hnone
            dsimp only
            rcases hchar (ix1-1+i+1) with hc | ⟨_, hcq, hck⟩ | ⟨i', hi', hs', hq', hck⟩
            · rw [hc]; exact (h6.2.2 i hi).2 hnone
            · rw [hck]; omega
            · rw [hck]
              intro hcontra
              have hii : i' = i := by omega
              subst hii
              exact hbne x ix1 hx1 (by omega)
      · intro hnp
        have hxs : x ∉ pend := fun hc => hnp (List.mem_cons_of_mem _ hc)
        have hvo := h7 hxs
        intro i hi c hc
        obtain ⟨hv1, hv2⟩ := hvo i hi c hc
        have hsc : SimpleT.mk w cs ≠ c := by
          intro hcc; rw [← hcc] at hv1; exact hv1 hm
        constructor
        · dsimp only
          rw [lookupIdx_cons, if_neg hsc]
          exact hv1
        · dsimp only
          rw [lookupIdx_cons, if_neg hsc]
          have hkeyc : keyAt st.cells (ix1-1+i+1) ≠ 0 := by
            rw [(h6.2.2 i hi).1 (by rw [hc]; rfl)]; omega
          rw [hfrozV _ hkeyc]
          exact hv2

theorem valAt_setValL_ne (cells : List Nat) (p v q : Nat) (h : q ≠ p) :
    valAt (setValL cells p v) q = valAt cells q := by
  rw [valAt, valAt, getD_setValL_ne cells p v q h]

theorem lt_length_of_keyAt_ne_zero (cells : List Nat) (p : Nat) (h : keyAt cells p ≠ 0) :
    p < cells.length := by
  by_contra hc
  exact h (keyAt_eq_zero_of_le cells p (Nat.le_of_not_lt hc))

/-- Main correctness induction for `insertNode`: the global invariant is
preserved, the memo map only grows with fresh nodes, and after the call the
node is recorded with its returned base and (through `GInv` with an empty
pending list at top level) fully written. -/
theorem insertP_main (N : Nat) (hN : N ≤ 254) : ∀ n,
    (∀ (s : SimpleT) (st : PackSt) (pend : List SimpleT), sizeOf s ≤ n →
      uniformT N s = true → liveB s = true → goodKidsT s = true →
      (∀ x, x ∈ pend → sizeOf s < sizeOf x) →
      GInv N st pend →
      GInv N (insertNodeP s st).2 pend ∧
      (∃ new, (insertNodeP s st).2.indexes = new ++ st.indexes ∧
        ∀ z vz, (z, vz) ∈ new → lookupIdx st.indexes z = 0) ∧
      st.cells.length ≤ (insertNodeP s st).2.cells.length ∧
      lookupIdx (insertNodeP s st).2.indexes s = (insertNodeP s st).1 + 1) ∧
    (∀ (cs : List (Option SimpleT)) (pos idx : Nat) (st : PackSt) (pend : List SimpleT),
      sizeOf cs ≤ n →
      uniformK N cs = true → goodKidsK cs = true →
      pos + cs.length ≤ N →
      (∀ x, x ∈ pend → sizeOf cs < sizeOf x) →
      (∀ i, i < cs.length → (cs.getD i none).isSome = true →
        keyAt st.cells (idx + pos + i + 1) = pos + i + 2) →
      (∃ x0, (x0, idx + 1) ∈ st.indexes ∧ x0 ∈ pend) →
      GInv N st pend →
      GInv N (insertKidsP cs pos idx st) pend ∧
      (∃ new, (insertKidsP cs pos idx st).indexes = new ++ st.indexes ∧
        ∀ z vz, (z, vz) ∈ new → lookupIdx st.indexes z = 0) ∧
      st.cells.length ≤ (insertKidsP cs pos idx st).cells.length ∧
      (∀ i, i < cs.length → ∀ c, cs.getD i none = some c →
        lookupIdx (insertKidsP cs pos idx st).indexes c ≠ 0 ∧
        valAt (insertKidsP cs pos idx st).cells (idx + pos + i + 1) =
          (lookupIdx (insertKidsP cs pos idx st).indexes c - 1) % 2^24)) := by
  intro n
  induction n with
  | zero =>
    constructor
    · intro s st pend hs
      cases s with | mk w cs => simp at hs
    · intro cs pos idx st pend hs
      cases cs with
      | nil =>
        intro _ _ _ _ _ _ hG
        exact ⟨hG, ⟨[], rfl, by simp⟩, le_rfl, by intro i hi; simp at hi⟩
      | cons x r => simp at hs
  | succ n ih =>
    constructor
    · -- insertNodeP
      intro s st pend hs hu hl hg hpend hG
      cases s with | mk w cs =>
      by_cases hm : lookupIdx st.indexes (.mk w cs) = 0
      · -- fresh placement
        have hNlen : cs.length = N := by
          simp only [uniformT, Bool.and_eq_true, beq_iff_eq] at hu; exact hu.1
        have huK : uniformK N cs = true := by
          simp only [uniformT, Bool.and_eq_true, beq_iff_eq] at hu; exact hu.2
        have hgK : goodKidsK cs = true := by
          simp only [goodKidsT] at hg; exact hg
        have hfr := GInv_fresh_step N hN st pend w cs hu hl hg hG hm
        have hkeys2 : ∀ i, i < cs.length → (cs.getD i none).isSome = true →
            keyAt (freshCells st w cs)
              ((findIndexT st.cells (.mk w cs)).1 + 0 + i + 1) = 0 + i + 2 := by
          intro i hi hsm
          have := freshCells_child st w cs i hi hsm (by omega)
          have harith : (findIndexT st.cells (.mk w cs)).1 + 0 + i + 1 =
              (findIndexT st.cells (.mk w cs)).1 + i + 1 := by omega
          rw [harith, this]
          omega
        have hkids := ih.2 cs 0 (findIndexT st.cells (.mk w cs)).1
          { cells := freshCells st w cs,
            indexes := (SimpleT.mk w cs, (findIndexT st.cells (.mk w cs)).1 + 1) :: st.indexes }
          (SimpleT.mk w cs :: pend)
          (by simp only [SimpleT.mk.sizeOf_spec] at hs; omega)
          huK hgK (by omega)
          (by
            intro x hx
            rcases List.mem_cons.mp hx with hx1 | hx1
            · subst hx1; simp
            · have h1 := hpend x hx1
              have h2 : sizeOf cs < sizeOf (SimpleT.mk w cs) := by simp
              omega)
          hkeys2
          ⟨SimpleT.mk w cs, List.mem_cons_self _ _, List.mem_cons_self _ _⟩
          hfr
        obtain ⟨hkG, ⟨newk, hknew, hkfresh⟩, hklen, hkvals⟩ := hkids
        rw [insertNodeP_fresh' w cs st hm]
        dsimp only
        -- the unique index of the new node in the final table
        have hlook2 : lookupIdx ((SimpleT.mk w cs, (findIndexT st.cells (.mk w cs)).1 + 1)
            :: st.indexes) (SimpleT.mk w cs) = (findIndexT st.cells (.mk w cs)).1 + 1 := by
          rw [lookupIdx_cons, if_pos rfl]
        have hlook3 : lookupIdx (insertKidsP cs 0 (findIndexT st.cells (.mk w cs)).1
            { cells := freshCells st w cs,
              indexes := (SimpleT.mk w cs, (findIndexT st.cells (.mk w cs)).1 + 1)
                :: st.indexes }).indexes (SimpleT.mk w cs) =
            (findIndexT st.cells (.mk w cs)).1 + 1 := by
          rw [hknew]
          rw [lookupIdx_extend newk _ hkfresh _ (by rw [hlook2]; omega)]
          exact hlook2
        refine ⟨?_, ?_, ?_, hlook3⟩
        · -- GInv with the original pending list
          obtain ⟨hnd3, hbi3, hent3⟩ := hkG
          refine ⟨hnd3, hbi3, ?_⟩
          intro x ix1 hx
          obtain ⟨h1, h2, h3, h4, h5, h6, h7⟩ := hent3 x ix1 hx
          refine ⟨h1, h2, h3, h4, h5, h6, ?_⟩
          intro hnp
          by_cases hxs : x = SimpleT.mk w cs
          · subst hxs
            have hix : ix1 = (findIndexT st.cells (.mk w cs)).1 + 1 := by
              have := mem_lookupIdx _ hnd3 _ _ hx
              rw [hlook3] at this
              omega
            subst hix
            intro i hi c hc
            simp only [SimpleT.children] at hi hc
            have := hkvals i hi c hc
            have harith : (findIndexT st.cells (.mk w cs)).1 + 0 + i + 1 =
                (findIndexT st.cells (.mk w cs)).1 + 1 - 1 + i + 1 := by omega
            rw [harith] at this
            exact this
          · exact h7 (by
              intro hc
              rcases List.mem_cons.mp hc with hc1 | hc1
              · exact hxs hc1
              · exact hnp hc1)
        · -- memo extension
          refine ⟨newk ++ [(SimpleT.mk w cs, (findIndexT st.cells (.mk w cs)).1 + 1)], ?_, ?_⟩
          · rw [hknew, List.append_assoc]
            rfl
          · intro z vz hz
            rcases List.mem_append.mp hz with hz1 | hz1
            · have := hkfresh z vz hz1
              rw [lookupIdx_cons] at this
              by_cases hzs : SimpleT.mk w cs = z
              · exfalso
                rw [if_pos hzs] at this
                omega
              · rwa [if_neg hzs] at this
            · simp only [List.mem_singleton, Prod.mk.injEq] at hz1
              rw [hz1.1]
              exact hm
        · -- length
          refine le_trans ?_ hklen
          dsimp only
          obtain ⟨⟨k, hgrow⟩, _⟩ := findIndexT_base st.cells (.mk w cs)
          rw [freshCells_len, hgrow]
          simp
      · -- memo hit
        rw [insertNodeP_memo _ _ hm]
        dsimp only
        refine ⟨hG, ⟨[], rfl, by simp⟩, le_rfl, by omega⟩
    · -- insertKidsP
      intro cs pos idx st pend hs hk hgk hpos hpend h2 hparent hG
      cases cs with
      | nil =>
        exact ⟨hG, ⟨[], rfl, by simp⟩, le_rfl, by intro i hi; simp at hi⟩
      | cons x r =>
        cases x with
        | none =>
          rw [insertKidsP]
          have hr := ih.2 r (pos+1) idx st pend
            (by simp at hs; omega)
            (by simpa [uniformK] using hk)
            (by simpa [goodKidsK] using hgk)
            (by simp at hpos ⊢; omega)
            (by
              intro x hx
              have h1 := hpend x hx
              have h3 : sizeOf r < sizeOf (none :: r : List (Option SimpleT)) := by simp
              omega)
            (by
              intro i hi hsm
              have := h2 (i+1) (by simpa using hi) (by simpa using hsm)
              have harith : idx + pos + (i+1) + 1 = idx + (pos+1) + i + 1 := by omega
              rw [harith] at this
              rw [this]
              omega)
            hparent hG
          obtain ⟨hrG, hrfresh, hrlen, hrvals⟩ := hr
          refine ⟨hrG, hrfresh, hrlen, ?_⟩
          intro i hi c hc
          cases i with
          | zero => simp at hc
          | succ i' =>
            have hi' : i' < r.length := by simpa using hi
            have hc' : r.getD i' none = some c := by simpa using hc
            have := hrvals i' hi' c hc'
            have harith : idx + (pos+1) + i' + 1 = idx + pos + (i'+1) + 1 := by omega
            rw [harith] at this
            exact this
        | some c =>
          rw [insertKidsP]
          dsimp only
          -- the child insertion
          have huc : uniformT N c = true := by
            simp only [uniformK, Bool.and_eq_true] at hk; exact hk.1
          have hur : uniformK N r = true := by
            simp only [uniformK, Bool.and_eq_true] at hk; exact hk.2
          have hlc : liveB c = true := by
            simp only [goodKidsK, Bool.and_eq_true] at hgk; exact hgk.1.1
          have hgc : goodKidsT c = true := by
            simp only [goodKidsK, Bool.and_eq_true] at hgk; exact hgk.1.2
          have hgr : goodKidsK r = true := by
            simp only [goodKidsK, Bool.and_eq_true] at hgk; exact hgk.2
          have hnode := ih.1 c st pend
            (by simp at hs; omega)
            huc hlc hgc
            (by
              intro x hx
              have h1 := hpend x hx
              have h3 : sizeOf c < sizeOf (some c :: r : List (Option SimpleT)) := by
                simp; omega
              omega)
            hG
          obtain ⟨hqG, ⟨newc, hcnew, hcfresh⟩, hqlen, hqlook⟩ := hnode
          -- the cell idx+pos+1 carries the parent's key pos+2, before and after
          have hkey0 : keyAt st.cells (idx + pos + 1) = pos + 2 := by
            have := h2 0 (by simp) (by simp)
            have harith : idx + pos + 0 + 1 = idx + pos + 1 := by omega
            rwa [harith] at this
          have hkey0q : keyAt (insertNodeP c st).2.cells (idx + pos + 1) = pos + 2 := by
            have hfr := ((insertP_frame (sizeOf c)).1 c st le_rfl).2 (idx+pos+1)
              (by rw [hkey0]; omega)
            simp only [keyAt]
            rw [hfr, ← keyAt, hkey0]
          have hin0q : idx + pos + 1 < (insertNodeP c st).2.cells.length :=
            lt_length_of_keyAt_ne_zero _ _ (by rw [hkey0q]; omega)
          -- GInv survives writing the child's base into the parent's slot
          have hG2 : GInv N { cells := (setValL (insertNodeP c st).2.cells (idx+pos+1)
              (insertNodeP c st).1), indexes := (insertNodeP c st).2.indexes } pend := by
            obtain ⟨hnd2, hbi2, hent2⟩ := hqG
            refine ⟨hnd2, hbi2, ?_⟩
            intro y iy1 hy
            obtain ⟨g1, g2, g3, g4, g5, g6, g7⟩ := hent2 y iy1 hy
            refine ⟨g1, by dsimp only; rw [length_setValL]; exact g2, g3, g4, g5, ?_, ?_⟩
            · refine ⟨?_, ?_, ?_⟩
              · intro hw; dsimp only; rw [keyAt_setValL]; exact g6.1 hw
              · intro hw; dsimp only; rw [keyAt_setValL]; exact g6.2.1 hw
              · intro i hi
                constructor
                · intro hsm; dsimp only; rw [keyAt_setValL]; exact (g6.2.2 i hi).1 hsm
                · intro hno; dsimp only; rw [keyAt_setValL]; exact (g6.2.2 i hi).2 hno
            · intro hnp
              have gvo := g7 hnp
              intro i hi cc hcc
              obtain ⟨gv1, gv2⟩ := gvo i hi cc hcc
              refine ⟨gv1, ?_⟩
              dsimp only
              by_cases hcell : iy1 - 1 + i + 1 = idx + pos + 1
              · -- would overwrite a completed node's slot: impossible
                exfalso
                have hklocal : keyAt (insertNodeP c st).2.cells (iy1-1+i+1) = i + 2 :=
                  (g6.2.2 i hi).1 (by rw [hcc]; rfl)
                rw [hcell, hkey0q] at hklocal
                have hieq : i = pos := by omega
                subst hieq
                have hbase : iy1 = idx + 1 := by omega
                obtain ⟨x0, hx0mem, hx0pend⟩ := hparent
                have hx0q : (x0, idx + 1) ∈ (insertNodeP c st).2.indexes := by
                  rw [hcnew]; exact List.mem_append_right _ hx0mem
                by_cases hyx : y = x0
                · subst hyx
                  exact hnp hx0pend
                · exact hbi2 y iy1 x0 (idx+1) hy hx0q hyx (by omega)
              · rw [valAt_setValL_ne _ _ _ _ hcell]
                exact gv2
          -- recurse on the remaining children
          have hr := ih.2 r (pos+1) idx
            { cells := setValL (insertNodeP c st).2.cells (idx+pos+1) (insertNodeP c st).1,
              indexes := (insertNodeP c st).2.indexes } pend
            (by simp at hs; omega)
            hur hgr
            (by simp only [List.length_cons] at hpos; omega)
            (by
              intro x hx
              have h1 := hpend x hx
              have h3 : sizeOf r < sizeOf (some c :: r : List (Option SimpleT)) := by
                simp
              omega)
            (by
              intro i hi hsm
              have hold := h2 (i+1) (by simpa using hi) (by simpa using hsm)
              have harith : idx + pos + (i+1) + 1 = idx + (pos+1) + i + 1 := by omega
              rw [harith] at hold
              dsimp only
              rw [keyAt_setValL]
              have hfr := ((insertP_frame (sizeOf c)).1 c st le_rfl).2 (idx+(pos+1)+i+1)
                (by rw [hold]; omega)
              simp only [keyAt]
              rw [hfr, ← keyAt, hold]
              omega)
            (by
              obtain ⟨x0, hx0mem, hx0pend⟩ := hparent
              refine ⟨x0, ?_, hx0pend⟩
              dsimp only
              rw [hcnew]
              exact List.mem_append_right _ hx0mem)
            hG2
          obtain ⟨hrG, ⟨newr, hrnew, hrfresh⟩, hrlen, hrvals⟩ := hr
          dsimp only at hrnew hrlen
          refine ⟨hrG, ?_, ?_, ?_⟩
          · -- memo extension
            refine ⟨newr ++ newc, ?_, ?_⟩
            · rw [hrnew, hcnew, List.append_assoc]
            · intro z vz hz
              rcases List.mem_append.mp hz with hz1 | hz1
              · have hz2 := hrfresh z vz hz1
                by_cases hz3 : lookupIdx st.indexes z = 0
                · exact hz3
                · exfalso
                  rw [hcnew, lookupIdx_extend newc _ hcfresh z hz3] at hz2
                  exact hz3 hz2
              · exact hcfresh z vz hz1
          · -- length
            refine le_trans hqlen (le_trans ?_ hrlen)
            rw [length_setValL]
          · -- the written values
            intro i hi cc hcc
            cases i with
            | zero =>
              have hcc0 : c = cc := by simpa using hcc
              rw [← hcc0]
              have hlook2 : lookupIdx (insertNodeP c st).2.indexes c =
                  (insertNodeP c st).1 + 1 := hqlook
              have hlookr : lookupIdx (insertKidsP r (pos+1) idx
                  { cells := (setValL (insertNodeP c st).2.cells (idx+pos+1)
                      (insertNodeP c st).1),
                    indexes := (insertNodeP c st).2.indexes }).indexes c =
                  (insertNodeP c st).1 + 1 := by
                rw [hrnew]
                rw [lookupIdx_extend newr _ hrfresh c (by dsimp only; rw [hlook2]; omega)]
                dsimp only
                exact hlook2
              refine ⟨by rw [hlookr]; omega, ?_⟩
              have hvwrite : valAt (setValL (insertNodeP c st).2.cells (idx+pos+1)
                  (insertNodeP c st).1) (idx+pos+1) = (insertNodeP c st).1 % 2^24 :=
                valAt_setValL_self _ _ _ hin0q
              have hfrz := ((insertP_frame (sizeOf r)).2 r (pos+1) idx
                { cells := (setValL (insertNodeP c st).2.cells (idx+pos+1)
                    (insertNodeP c st).1),
                  indexes := (insertNodeP c st).2.indexes } le_rfl).2.1 (idx+pos+1)
                (by dsimp only; rw [keyAt_setValL, hkey0q]; omega)
                (by intro i' hi' hsm'; omega)
              have harith : idx + pos + 0 + 1 = idx + pos + 1 := by omega
              rw [harith, hlookr]
              rw [valAt] at hvwrite ⊢
              dsimp only at hfrz ⊢
              rw [hfrz, hvwrite]
              congr 1
            | succ i' =>
              have hi' : i' < r.length := by simpa using hi
              have hcc' : r.getD i' none = some cc := by simpa using hcc
              have := hrvals i' hi' cc hcc'
              have harith : idx + (pos+1) + i' + 1 = idx + pos + (i'+1) + 1 := by omega
              rw [harith] at this
              exact this

theorem followStarS_none (cm : CharMap) (bs : List Nat) :
    followStarS cm none bs = none := by
  induction bs with
  | nil => rfl
  | cons b r ih => exact ih

theorem pFollow_dead (b : Nat) : pFollow badNodeP b = badNodeP := by
  rw [pFollow,
    if_pos (show badNodeP.idx = -1 ∨ badNodeP.cm b = 0 from Or.inl (by rw [badNodeP]))]

theorem pFollowStar_dead (bs : List Nat) : pFollowStar badNodeP bs = badNodeP := by
  induction bs with
  | nil => rfl
  | cons b r ih =>
    show pFollowStar (pFollow badNodeP b) r = badNodeP
    rw [pFollow_dead]
    exact ih

theorem indexAtP_hit (cells : List Nat) (idx c : Nat) (hlt : idx + c < cells.length)
    (hk : keyAt cells (idx + c) = c + 1) (hc : c + 1 < 256) :
    indexAtP cells idx c = (valAt cells (idx + c) : Int) := by
  rw [indexAtP, if_neg]
  push_neg
  refine ⟨by omega, ?_⟩
  rw [hk, Nat.mod_eq_of_lt hc]

theorem indexAtP_miss (cells : List Nat) (idx c : Nat)
    (hk : keyAt cells (idx + c) ≠ (c + 1) % 256) :
    indexAtP cells idx c = -1 := by
  rw [indexAtP, if_pos (Or.inr hk)]

theorem pFollow_eq (p : PackedN) (b : Nat) (h1 : ¬p.idx = -1) (h2 : ¬p.cm b = 0) :
    pFollow p b = if indexAtP p.cells p.idx.toNat (p.cm b) = -1 then badNodeP
      else { p with idx := indexAtP p.cells p.idx.toNat (p.cm b) } := by
  rw [pFollow, if_neg (by push_neg; exact ⟨h1, h2⟩)]

theorem packRel_step (N : Nat) (hN : N ≤ 254) (cm : CharMap) (hcm : ∀ b, cm b ≤ N)
    (st : PackSt) (hG : GInv N st []) (hlen : st.cells.length ≤ 2 ^ 24)
    (o : Option SimpleT) (p : PackedN) (h : RelSP st cm o p) (b : Nat) :
    RelSP st cm (followS cm o b) (pFollow p b) := by
  rcases h with ⟨ho, hp⟩ | ⟨x, ix1, ho, hx, hp⟩
  · subst ho; subst hp
    exact Or.inl ⟨rfl, pFollow_dead b⟩
  · subst ho; subst hp
    obtain ⟨hnd, hbi, hent⟩ := hG
    obtain ⟨h1, h2, hu, hl, hg, hkeys, hvals⟩ := hent x ix1 hx
    have hvals' := hvals (by simp)
    cases x with | mk w cs =>
    have hcs : cs.length = N := by
      simp only [uniformT, Bool.and_eq_true, beq_iff_eq] at hu
      exact hu.1
    by_cases hb : cm b = 0
    · refine Or.inl ⟨?_, ?_⟩
      · simp only [followS, if_pos hb]
      · rw [pFollow, if_pos (Or.inr (show (pnodeOf st cm ix1).cm b = 0 from hb))]
    · have hk1 : 1 ≤ cm b := Nat.one_le_iff_ne_zero.mpr hb
      have hkN : cm b ≤ N := hcm b
      have htoNat : (((ix1 - 1 : Nat) : Int)).toNat = ix1 - 1 := by omega
      have hcond1 : ¬(pnodeOf st cm ix1).idx = -1 := by
        simp only [pnodeOf]
        omega
      cases hchild : cs.getD (cm b - 1) none with
      | none =>
        have hkey : keyAt st.cells (ix1 - 1 + (cm b - 1) + 1) ≠ cm b - 1 + 2 :=
          (hkeys.2.2 (cm b - 1) (by simp only [SimpleT.children]; omega)).2 hchild
        have harith : ix1 - 1 + (cm b - 1) + 1 = ix1 - 1 + cm b := by omega
        rw [harith] at hkey
        refine Or.inl ⟨?_, ?_⟩
        · simp only [followS, SimpleT.children]
          rw [if_neg hb, hchild]
        · rw [pFollow_eq _ _ hcond1 hb]
          simp only [pnodeOf]
          rw [htoNat]
          have hmiss : indexAtP st.cells (ix1 - 1) (cm b) = -1 := by
            apply indexAtP_miss
            rw [Nat.mod_eq_of_lt (by omega)]
            intro hcontra
            apply hkey
            omega
          rw [hmiss]
          simp
      | some c =>
        have hkey : keyAt st.cells (ix1 - 1 + cm b) = cm b + 1 := by
          have hk0 := (hkeys.2.2 (cm b - 1) (by simp only [SimpleT.children]; omega)).1
            (by simp only [SimpleT.children]; rw [hchild]; rfl)
          have harith : ix1 - 1 + (cm b - 1) + 1 = ix1 - 1 + cm b := by omega
          rw [harith] at hk0
          rw [hk0]
          omega
        obtain ⟨hc0, hcval⟩ :=
          hvals' (cm b - 1) (by simp only [SimpleT.children]; omega) c hchild
        have harith : ix1 - 1 + (cm b - 1) + 1 = ix1 - 1 + cm b := by omega
        rw [harith] at hcval
        have hcmem := lookupIdx_mem st.indexes c hc0
        obtain ⟨hc1, hc2, -⟩ := hent c (lookupIdx st.indexes c) hcmem
        have hmod : (lookupIdx st.indexes c - 1) % 2 ^ 24 = lookupIdx st.indexes c - 1 :=
          Nat.mod_eq_of_lt (by omega)
        refine Or.inr ⟨c, lookupIdx st.indexes c, ?_, hcmem, ?_⟩
        · simp only [followS, SimpleT.children]
          rw [if_neg hb, hchild]
        · rw [pFollow_eq _ _ hcond1 hb]
          simp only [pnodeOf]
          rw [htoNat]
          have hhit : indexAtP st.cells (ix1 - 1) (cm b) =
              ((lookupIdx st.indexes c - 1 : Nat) : Int) := by
            rw [indexAtP_hit st.cells (ix1 - 1) (cm b) (by omega) hkey (by omega)]
            rw [hcval, hmod]
          rw [hhit, if_neg (by omega)]

theorem packRel_star (N : Nat) (hN : N ≤ 254) (cm : CharMap) (hcm : ∀ b, cm b ≤ N)
    (st : PackSt) (hG : GInv N st []) (hlen : st.cells.length ≤ 2 ^ 24) :
    ∀ (bs : List Nat) (o : Option SimpleT) (p : PackedN), RelSP st cm o p →
      RelSP st cm (followStarS cm o bs) (pFollowStar p bs) := by
  intro bs
  induction bs with
  | nil => intro o p h; exact h
  | cons b rest ih =>
    intro o p h
    have hstep := packRel_step N hN cm hcm st hG hlen o p h b
    show RelSP st cm (followStarS cm (followS cm o b) rest) (pFollowStar (pFollow p b) rest)
    exact ih _ _ hstep

theorem packRel_queries (N : Nat) (cm : CharMap) (st : PackSt) (hG : GInv N st [])
    (o : Option SimpleT) (p : PackedN) (h : RelSP st cm o p) :
    pIsPref p = isPrefS o ∧ pIsWord p = isWordS o := by
  rcases h with ⟨ho, hp⟩ | ⟨x, ix1, ho, hx, hp⟩
  · subst ho; subst hp
    exact ⟨rfl, rfl⟩
  · subst ho; subst hp
    obtain ⟨hnd, hbi, hent⟩ := hG
    obtain ⟨h1, h2, hu, hl, hg, hkeys, hvals⟩ := hent x ix1 hx
    have htoNat : (((ix1 - 1 : Nat) : Int)).toNat = ix1 - 1 := by omega
    constructor
    · rw [pIsPref]
      simp only [pnodeOf, isPrefS, Option.isSome_some]
      simp only [bne_iff_ne, ne_eq]
      omega
    · rw [pIsWord]
      simp only [pnodeOf]
      rw [htoNat]
      have hself : ix1 - 1 + 0 = ix1 - 1 := by omega
      cases hw : x.isWord with
      | false =>
        have hne : keyAt st.cells (ix1 - 1) ≠ 1 := hkeys.2.1 hw
        have hmiss : indexAtP st.cells (ix1 - 1) 0 = -1 := by
          apply indexAtP_miss
          rw [hself]
          intro hcontra
          apply hne
          omega
        rw [hmiss]
        simp [isWordS, hw]
      | true =>
        have heq : keyAt st.cells (ix1 - 1) = 1 := hkeys.1 hw
        have hhit : indexAtP st.cells (ix1 - 1) 0 =
            (valAt st.cells (ix1 - 1 + 0) : Int) := by
          apply indexAtP_hit st.cells (ix1 - 1) 0 (by omega)
          · rw [hself, heq]
          · omega
        rw [hhit]
        simp only [isWordS, hw]
        simp only [Bool.and_eq_true, bne_iff_ne, ne_eq]
        constructor
        · omega
        · omega

theorem setChildKeys_dead (cells : List Nat) (idx : Nat) :
    ∀ (cs : List (Option SimpleT)) (j : Nat), cs.any Option.isSome = false →
      setChildKeys cells idx cs j = cells := by
  intro cs
  induction cs with
  | nil => intro j _; rfl
  | cons x r ih =>
    intro j h
    cases x with
    | none => exact ih (j + 1) (by simpa using h)
    | some c => simp at h

theorem insertKidsP_dead (idx : Nat) :
    ∀ (cs : List (Option SimpleT)) (pos : Nat) (st : PackSt),
      cs.any Option.isSome = false → insertKidsP cs pos idx st = st := by
  intro cs
  induction cs with
  | nil => intro pos st _; rfl
  | cons x r ih =>
    intro pos st h
    cases x with
    | none => exact ih (pos + 1) st (by simpa using h)
    | some c => simp at h

theorem any_false_getD (cs : List (Option SimpleT)) (h : cs.any Option.isSome = false) :
    ∀ i, cs.getD i none = none := by
  induction cs with
  | nil => intro i; cases i <;> rfl
  | cons x r ih =>
    intro i
    cases x with
    | none =>
      cases i with
      | zero => rfl
      | succ j => exact ih (by simpa using h) j
    | some c => simp at h

theorem pFollow_zeros (p : PackedN) (N : Nat) (hN : N ≤ 254) (hcm : ∀ b, p.cm b ≤ N)
    (hz : ∀ q, p.cells.getD q 0 = 0) (hix : ¬p.idx = -1) (b : Nat) :
    pFollow p b = badNodeP := by
  by_cases hb : p.cm b = 0
  · rw [pFollow, if_pos (Or.inr hb)]
  · rw [pFollow_eq p b hix hb]
    have hmiss : indexAtP p.cells p.idx.toNat (p.cm b) = -1 := by
      apply indexAtP_miss
      rw [keyAt, hz]
      have hb1 : 1 ≤ p.cm b := Nat.one_le_iff_ne_zero.mpr hb
      have hb2 := hcm b
      rw [Nat.mod_eq_of_lt (by omega)]
      omega
    rw [hmiss]
    simp

theorem pIsWord_zeros (p : PackedN) (hz : ∀ q, p.cells.getD q 0 = 0) :
    pIsWord p = false := by
  rw [pIsWord]
  have hmiss : indexAtP p.cells p.idx.toNat 0 = -1 := by
    apply indexAtP_miss
    rw [keyAt, hz]
    omega
  rw [hmiss]
  simp

/-- C1: Packing round-trip.  For a suffix-compressed tree `t` (uniform fan-out
`N ≤ 254` with every recorded child live, as the builder and compressor
produce), following any byte string from the root of the packed encoding
(`fromSimple`) yields the same `IsPrefix` and `IsWord` answers as following it
from the root of the pre-packed encoding, provided the packed table fits in
the 24-bit value field — the packed trie recognizes exactly the same word
set. -/
theorem c1_packing_roundtrip (cm : CharMap) (N : Nat) (t : SimpleT) (bs : List Nat)
    (hN : N ≤ 254) (hcm : ∀ b, cm b ≤ N)
    (hu : uniformT N t = true) (hg : goodKidsT t = true)
    (hlen : (fromSimpleT cm t).cells.length ≤ 2 ^ 24) :
    pIsPref (pFollowStar (fromSimpleT cm t) bs) = isPrefS (followStarS cm (some t) bs) ∧
    pIsWord (pFollowStar (fromSimpleT cm t) bs) = isWordS (followStarS cm (some t) bs) := by
  by_cases hl : liveB t = true
  · have hG0 : GInv N { cells := [], indexes := [] } [] := by
      refine ⟨by simp, ?_, ?_⟩
      · intro x ix1 y iy1 hx
        simp at hx
      · intro x ix1 hx
        simp at hx
    have hmain := (insertP_main N hN (sizeOf t)).1 t { cells := [], indexes := [] } []
      le_rfl hu hl hg (by intro x hx; simp at hx) hG0
    obtain ⟨hGf, -, -, hlookf⟩ := hmain
    have hmem : (t, (insertNodeP t { cells := [], indexes := [] }).1 + 1) ∈
        (insertNodeP t { cells := [], indexes := [] }).2.indexes := by
      have hm := lookupIdx_mem (insertNodeP t { cells := [], indexes := [] }).2.indexes t
        (by rw [hlookf]; omega)
      rwa [hlookf] at hm
    have hrel : RelSP (insertNodeP t { cells := [], indexes := [] }).2 cm (some t)
        (fromSimpleT cm t) :=
      Or.inr ⟨t, (insertNodeP t { cells := [], indexes := [] }).1 + 1, rfl, hmem, rfl⟩
    have hstar := packRel_star N hN cm hcm _ hGf hlen bs (some t) (fromSimpleT cm t) hrel
    exact packRel_queries N cm _ hGf _ _ hstar
  · cases t with | mk w cs =>
    rw [Bool.not_eq_true] at hl
    rw [liveB] at hl
    simp only [SimpleT.isWord, SimpleT.children, Bool.or_eq_false_iff] at hl
    obtain ⟨hw, hdead⟩ := hl
    subst hw
    have hins := insertNodeP_fresh' false cs { cells := [], indexes := [] } rfl
    have hfc : freshCells { cells := [], indexes := [] } false cs =
        (findIndexT [] (.mk false cs)).2 := by
      rw [freshCells]
      rw [setChildKeys_dead _ _ cs 0 hdead]
      rfl
    have hcells : (fromSimpleT cm (.mk false cs)).cells =
        freshCells { cells := [], indexes := [] } false cs := by
      show (insertNodeP (.mk false cs) { cells := [], indexes := [] }).2.cells = _
      rw [hins]
      dsimp only
      rw [insertKidsP_dead _ cs 0 _ hdead]
    have hidx : (fromSimpleT cm (.mk false cs)).idx =
        ((findIndexT [] (.mk false cs)).1 : Int) := by
      show ((insertNodeP (.mk false cs) { cells := [], indexes := [] }).1 : Int) = _
      rw [hins]
    have hzc : ∀ p, (fromSimpleT cm (.mk false cs)).cells.getD p 0 = 0 := by
      intro p
      rw [hcells, hfc]
      obtain ⟨k, hk⟩ := (findIndexT_base [] (.mk false cs)).1
      rw [hk, List.nil_append]
      exact getD_replicate_zero k p
    have hF : ∀ b, followS cm (some (SimpleT.mk false cs)) b = none := by
      intro b
      by_cases hb : cm b = 0
      · simp only [followS, if_pos hb]
      · simp only [followS, SimpleT.children]
        rw [if_neg hb, any_false_getD cs hdead (cm b - 1)]
    cases bs with
    | nil =>
      refine ⟨?_, ?_⟩
      · rw [pIsPref]
        show ((fromSimpleT cm (.mk false cs)).idx != -1) = isPrefS (some (.mk false cs))
        rw [hidx]
        simp only [isPrefS, Option.isSome_some]
        simp only [bne_iff_ne, ne_eq]
        omega
      · show pIsWord (fromSimpleT cm (.mk false cs)) = isWordS (some (.mk false cs))
        rw [pIsWord_zeros _ hzc]
        rfl
    | cons b rest =>
      have hstep1 : followStarS cm (some (SimpleT.mk false cs)) (b :: rest) = none := by
        show followStarS cm (followS cm (some (.mk false cs)) b) rest = none
        rw [hF b]
        exact followStarS_none cm rest
      have hstep2 : pFollowStar (fromSimpleT cm (.mk false cs)) (b :: rest) = badNodeP := by
        show pFollowStar (pFollow (fromSimpleT cm (.mk false cs)) b) rest = badNodeP
        rw [pFollow_zeros _ N hN hcm hzc (by rw [hidx]; omega) b]
        exact pFollowStar_dead rest
      rw [hstep1, hstep2]
      exact ⟨rfl, rfl⟩

theorem c1_packing_roundtrip_wit :
    pIsPref (pFollowStar (fromSimpleT cmW tW) [65, 66]) =
      isPrefS (followStarS cmW (some tW) [65, 66]) ∧
    pIsWord (pFollowStar (fromSimpleT cmW tW) [65, 66]) =
      isWordS (followStarS cmW (some tW) [65, 66]) :=
  c1_packing_roundtrip cmW 1 tW [65, 66] (by decide)
    (by intro b; simp only [cmW]; split <;> decide)
    (by decide) (by decide) (by decide)
